import Mathlib

/-!
Verification of the transit line planning core (tlpf_ktransfers.py and
nearest_stops_demand.py) against its specification.

Modelling conventions:
* Real-valued quantities are represented by rationals.  The geometric kernel
  (haversine_km and travel_minutes) computes with trigonometric functions that
  have no exact rational form, so travel time between two stop identifiers is
  abstracted as an arbitrary total function tv : String → String → ℚ, standing
  for travel_minutes applied to the coordinates found in the stop registry.
  Every property proved below holds for all such functions, hence in
  particular for the concrete floating point one.
* A wait-time mapping wait_by_line.get(lid, 0.0) is modelled as the total
  function (fun lid => ...) it computes; an arbitrary map corresponds to an
  arbitrary function String → ℚ.
* Python list.sort and sorted are stable; they are modelled with
  List.insertionSort, which is stable for the reflexive descending relation
  used below.  pandas sort_values uses an unstable quicksort; its tie order is
  implementation defined and is refined here to the stable order.
-/

/-- Stop record of tlpf_ktransfers.py (dataclass Stop). -/
structure Stop where
  stop_id : String
  name : String
  lat : ℚ
  lon : ℚ
  kind : String
deriving DecidableEq

/-- Line record of tlpf_ktransfers.py (dataclass Line). -/
structure Line where
  line_id : String
  stops : List String
  cycle_minutes : ℚ
  demand_coverage : ℚ
  efficiency_score : ℚ
deriving DecidableEq

/-- One row of the origin-destination demand matrix (columns o, d, demand). -/
structure ODRow where
  o : String
  d : String
  demand : ℚ
deriving DecidableEq

/-- Row of the sources table used by build_equal_split_od (stop_id, demand). -/
structure SourceRow where
  stop_id : String
  demand : ℚ
deriving DecidableEq

/-- Row of the destinations table used by build_equal_split_od. -/
structure DestRow where
  stop_id : String
deriving DecidableEq

/-- build_equal_split_od: for each source, if there is at least one
destination, emit one OD row per destination carrying an equal share
total/len(destinations) of the demand of the source. -/
def build_equal_split_od (sources : List SourceRow) (destinations : List DestRow) :
    List ODRow :=
  sources.flatMap (fun s =>
    if destinations.length = 0 then []
    else destinations.map (fun d =>
      ⟨s.stop_id, d.stop_id, s.demand / (destinations.length : ℚ)⟩))

/-! ## K-transfer routing (shortest_time_k_transfers)

The Python function is a label-setting Dijkstra search over states
(line_id, position on line, transfers used), returning the cost of the first
popped state whose stop equals the destination, and infinity when the heap
empties.  All call sites use nonnegative wait times (half a headway),
nonnegative transfer penalties and nonnegative segment times; in that regime
the first popped state at the destination realises the minimum cost over all
transition paths, and a minimum is attained on a path that repeats no state,
hence on a path of fewer than (k_max+1) * (sum of line lengths) transitions.
The function is therefore embedded as the minimum cost over all transition
paths of that bounded length, with none standing for infinity. -/

/-- Search state: line identifier, index on the line, transfers used. -/
abbrev RState := String × ℕ × ℕ

/-- Lookup of a line by identifier.  The Python dict comprehensions keyed by
line_id let a later line overwrite an earlier one with the same identifier,
so the last matching line wins. -/
def findLineLast (lines : List Line) (lid : String) : Option Line :=
  lines.reverse.find? (fun ln => ln.line_id == lid)

/-- Stop sequence of the line registered under an identifier. -/
def lineStopsOf (lines : List Line) (lid : String) : List String :=
  match findLineLast lines lid with
  | some ln => ln.stops
  | none => []

/-- Index assigned to a stop by the dict comprehension
{sid: i for i, sid in enumerate(ln.stops)}: the index of the last
occurrence of the stop on the line. -/
def lastIndexOn (l : List String) (s : String) : ℕ :=
  l.length - 1 - l.reverse.indexOf s

/-- build_adj_times for one line: travel time of each consecutive segment. -/
def adjTimesOf (tv : String → String → ℚ) (lines : List Line) (lid : String) :
    List ℚ :=
  let s := lineStopsOf lines lid
  (s.zip s.tail).map (fun p => tv p.1 p.2)

/-- build_stop_to_lines: the identifiers of the lines serving a stop, one
entry per occurrence of the stop on a line, in line order. -/
def stop2linesAll (lines : List Line) (s : String) : List String :=
  lines.flatMap (fun ln => (ln.stops.filter (fun x => x == s)).map (fun _ => ln.line_id))

/-- Stop at a search state. -/
def stateStop (lines : List Line) (st : RState) : String :=
  (lineStopsOf lines st.1).getD st.2.1 ""

/-- One-step successors of a weighted search state: the forward move along
the line (cost plus segment time, transfers unchanged) and, while transfers
remain, the transfer moves to every other line serving the current stop
(cost plus transfer penalty plus the wait of the target line). -/
def rSucc (tv : String → String → ℚ) (lines : List Line) (wait : String → ℚ)
    (pen : ℚ) (kmax : ℕ) (st : RState × ℚ) : List (RState × ℚ) :=
  let lid := st.1.1
  let i := st.1.2.1
  let k := st.1.2.2
  let cost := st.2
  let stopsL := lineStopsOf lines lid
  let cur := stopsL.getD i ""
  let fwd : List (RState × ℚ) :=
    if i + 1 < stopsL.length then
      [((lid, i + 1, k), cost + (adjTimesOf tv lines lid).getD i 0)]
    else []
  let tra : List (RState × ℚ) :=
    if k < kmax then
      ((stop2linesAll lines cur).filter (fun lid2 => ¬(lid2 == lid))).map
        (fun lid2 =>
          ((lid2, lastIndexOn (lineStopsOf lines lid2) cur, k + 1),
            cost + pen + wait lid2))
    else []
  fwd ++ tra

/-- All weighted states reachable from a frontier by at most fuel
transitions. -/
def pathCosts (step : RState × ℚ → List (RState × ℚ)) :
    ℕ → List (RState × ℚ) → List (RState × ℚ)
  | 0, frontier => frontier
  | n + 1, frontier => frontier ++ pathCosts step n (frontier.flatMap step)

/-- Minimum of a list of costs, none when the list is empty. -/
def minCosts (l : List ℚ) : Option ℚ :=
  l.foldr (fun q acc =>
    match acc with
    | none => some q
    | some m => some (min q m)) none

/-- shortest_time_k_transfers: minimum travel time from o to d over the
given lines with at most k_max transfers; none models the infinite result
returned for an empty line set, for an unserved endpoint, or when no state
at the destination is reachable. -/
def shortest_time_k_transfers (o d : String) (lines : List Line)
    (tv : String → String → ℚ) (wait : String → ℚ) (pen : ℚ) (k_max : ℕ) :
    Option ℚ :=
  match lines with
  | [] => none
  | _ =>
    if stop2linesAll lines o = [] ∨ stop2linesAll lines d = [] then none
    else
      let inits : List (RState × ℚ) :=
        (stop2linesAll lines o).map
          (fun lid => ((lid, lastIndexOn (lineStopsOf lines lid) o, 0), wait lid))
      let fuel := (k_max + 1) * (lines.map (fun ln => ln.stops.length)).sum
      let entries := pathCosts (rSucc tv lines wait pen k_max) fuel inits
      minCosts ((entries.filter (fun e => stateStop lines e.1 == d)).map Prod.snd)

/-- Order on optional costs with none as infinity. -/
def infLE : Option ℚ → Option ℚ → Prop
  | _, none => True
  | none, some _ => False
  | some a, some b => a ≤ b

/-! ## Solution evaluation (evaluate_solution_improved) -/

/-- Per line mean wait time used by evaluate_solution_improved: the dict
{ln.line_id: 0.5 * headway for ln in lines} read with .get(lid, 0.0), where
headway = 60 / max(f_min, fleet_buses / len(lines)).  All values of the dict
are equal, so the overwrite awarded to duplicated identifiers is harmless. -/
def waitByLine (lines : List Line) (fleet_buses : ℕ) (f_min : ℚ) :
    String → ℚ :=
  fun lid =>
    if (lines.map Line.line_id).contains lid then
      (1 / 2) * (60 / max f_min ((fleet_buses : ℚ) / (lines.length : ℚ)))
    else 0

/-- evaluate_solution_improved: returns (total_cost, demand_coverage,
efficiency).  An empty line set yields the sentinel (1e9, 0.0, 0.0).
Otherwise each OD row with a finite routing cost contributes
demand * cost to total cost and demand to covered demand, and each row with
an infinite routing cost contributes the fallback
demand * (direct travel time + transfer penalty) to total cost only.
The accumulator is (total_cost, total_demand, covered_demand); the
accessible_pairs counter of the source is dropped because the accessibility
value computed from it is never returned. -/
def evalStep (lines : List Line) (tv : String → String → ℚ)
    (wait : String → ℚ) (pen : ℚ) (k : ℕ) (acc : ℚ × ℚ × ℚ) (row : ODRow) :
    ℚ × ℚ × ℚ :=
  match shortest_time_k_transfers row.o row.d lines tv wait pen k with
  | some best =>
      (acc.1 + row.demand * best, acc.2.1 + row.demand, acc.2.2 + row.demand)
  | none =>
      (acc.1 + row.demand * (tv row.o row.d + pen),
        acc.2.1 + row.demand, acc.2.2)

def evaluate_solution_improved (lines : List Line) (od : List ODRow)
    (tv : String → String → ℚ) (fleet_buses : ℕ) (k_transfers : ℕ)
    (transfer_penalty_min : ℚ) (f_min : ℚ) : ℚ × ℚ × ℚ :=
  match lines with
  | [] => (1000000000, 0, 0)
  | _ =>
    let wait := waitByLine lines fleet_buses f_min
    let res := od.foldl
      (evalStep lines tv wait transfer_penalty_min k_transfers) (0, 0, 0)
    (res.1, res.2.2 / max res.2.1 1, res.2.2 / max res.1 1)

/-- Cost contributed to total cost by one OD row: the routed cost when it is
finite, the direct-travel fallback plus flat penalty otherwise, both
weighted by demand. -/
def odRowCost (lines : List Line) (tv : String → String → ℚ)
    (wait : String → ℚ) (pen : ℚ) (k : ℕ) (row : ODRow) : ℚ :=
  match shortest_time_k_transfers row.o row.d lines tv wait pen k with
  | some best => row.demand * best
  | none => row.demand * (tv row.o row.d + pen)

/-- Demand of the OD rows whose pair is reachable within the transfer
limit. -/
def coveredOf (lines : List Line) (tv : String → String → ℚ)
    (wait : String → ℚ) (pen : ℚ) (k : ℕ) (od : List ODRow) : ℚ :=
  ((od.filter (fun row =>
    (shortest_time_k_transfers row.o row.d lines tv wait pen k).isSome)).map
      (fun row => row.demand)).sum

/-- Sum of the along-line segment travel times between two positions on a
line: entries i, i+1, ..., j-1 of the adjacency time list. -/
def segSum (adj : List ℚ) (i j : ℕ) : ℚ :=
  ((adj.drop i).take (j - i)).sum

/-! ## Stable sorting helpers

Python list.sort, sorted and pandas nsmallest are modelled with the stable
List.insertionSort; a stable sort is determined by the ordering relation and
the input order, so this agrees with the stable Timsort of the source. -/

/-- Stable ascending sort by a key (pandas nsmallest keeps the first of
equal keys, as does a stable ascending sort). -/
def sortAscBy {α K : Type} [LinearOrder K] (key : α → K) (l : List α) :
    List α :=
  l.insertionSort (fun a b => key a ≤ key b)

/-- Stable descending sort by a key (Python sorted(..., reverse=True) keeps
the original order of equal keys, as does a stable descending sort). -/
def sortDescBy {α K : Type} [LinearOrder K] (key : α → K) (l : List α) :
    List α :=
  l.insertionSort (fun a b => key b ≤ key a)

/-! ## Demand distribution (nearest_stops_demand.py) -/

/-- Building row: latitude, longitude, demand. -/
structure Building where
  latitude : ℚ
  longitude : ℚ
  demand : ℚ
deriving DecidableEq

/-- Stop row of the stops table of nearest_stops_demand.py. -/
structure StopRow where
  stop_name : String
  stop_lat : ℚ
  stop_lon : ℚ
deriving DecidableEq

/-- Square of the planar coordinate-difference distance of
nearest_stops_demand.py.  The source takes a square root, but the value is
used only for selecting the 3 smallest distances, and the square root is
strictly monotone on nonnegative arguments, so ranking by the squared
distance selects exactly the same stops and stays inside the rationals. -/
def euclidean_distance_sq (lat1 lon1 lat2 lon2 : ℚ) : ℚ :=
  (lat1 - lat2) ^ 2 + (lon1 - lon2) ^ 2

/-- Indices of the 3 stops nearest to a building under the planar distance,
pandas nsmallest(3) semantics: smallest key first, ties resolved by original
position. -/
def nearest3 (b : Building) (ss : List StopRow) : List ℕ :=
  ((sortAscBy (fun p : ℕ × StopRow =>
      euclidean_distance_sq b.latitude b.longitude p.2.stop_lat p.2.stop_lon)
    ss.enum).take 3).map (fun p => p.1)

/-- Processing of one building: demand / 3 is added to the running total of
each of its 3 nearest stops. -/
def stepBuilding (ss : List StopRow) (totals : List ℚ) (b : Building) :
    List ℚ :=
  let sel := nearest3 b ss
  totals.enum.map (fun p => if p.1 ∈ sel then p.2 + b.demand / 3 else p.2)

/-- Accumulated per-stop demand totals after all buildings, before rounding
and clipping. -/
def preRoundTotals (buildings : List Building) (ss : List StopRow) :
    List ℚ :=
  buildings.foldl (stepBuilding ss) (ss.map (fun _ => (0 : ℚ)))

/-- Round half to even, the rounding used by pandas Series.round(0) (numpy
banker rounding), then truncated to an integer by astype(int). -/
def roundHalfToEven (q : ℚ) : ℤ :=
  if q - ⌊q⌋ < 1 / 2 then ⌊q⌋
  else if (1 : ℚ) / 2 < q - ⌊q⌋ then ⌊q⌋ + 1
  else if 2 ∣ ⌊q⌋ then ⌊q⌋ else ⌊q⌋ + 1

/-- distribute_demand: accumulate demand / 3 on the 3 nearest stops of each
building, round each total to the nearest integer (half to even) and clip to
the minimum floor of 10; output one (stop_name, total_demand) row per
stop. -/
def distribute_demand (buildings : List Building) (ss : List StopRow) :
    List (String × ℤ) :=
  (ss.zip ((preRoundTotals buildings ss).map
    (fun t => max (roundHalfToEven t) 10))).map
    (fun p => (p.1.stop_name, p.2))

/-! ## Line selection policies -/

/-- Improvement score of optimize_routes_iterative for adding a line to the
current selection: for a nonempty selection the delta
(coverage - old coverage) * 1000 - (cost - old cost) / 1000, and for the
empty selection the absolute score coverage * 1000 - cost / 1000 of the
candidate evaluated alone (the source takes this branch instead of a delta
against the sentinel evaluation of the empty selection). -/
def iterImprovement (od : List ODRow) (tv : String → String → ℚ)
    (fleet k : ℕ) (pen : ℚ) (selected : List Line) (line : Line) : ℚ :=
  let res := evaluate_solution_improved (selected ++ [line]) od tv fleet k pen 1
  match selected with
  | [] => res.2.1 * 1000 - res.1 / 1000
  | _ =>
    let old := evaluate_solution_improved selected od tv fleet k pen 1
    (res.2.1 - old.2.1) * 1000 - (res.1 - old.1) / 1000

/-- The candidate of the remaining pool with the greatest improvement (first
one on ties, matching the strict comparison of the source loop), together
with its improvement. -/
def pickBestLine (od : List ODRow) (tv : String → String → ℚ)
    (fleet k : ℕ) (pen : ℚ) (selected : List Line) :
    List Line → Option (Line × ℚ)
  | [] => none
  | l :: rest => some (rest.foldl
      (fun best l2 =>
        let i := iterImprovement od tv fleet k pen selected l2
        if best.2 < i then (l2, i) else best)
      (l, iterImprovement od tv fleet k pen selected l))

/-- Selection loop of optimize_routes_iterative; the fuel argument is the
length of the remaining pool, which strictly decreases at every step of the
source loop. -/
def iterLoop (od : List ODRow) (tv : String → String → ℚ) (fleet k : ℕ)
    (pen : ℚ) : ℕ → List Line → List Line → List Line
  | 0, sel, _ => sel
  | fuel + 1, sel, rem =>
    match pickBestLine od tv fleet k pen sel rem with
    | none => sel
    | some (b, imp) =>
      if 0 < imp then iterLoop od tv fleet k pen fuel (sel ++ [b]) (rem.erase b)
      else sel

/-- optimize_routes_iterative: sort the candidates by efficiency descending,
then repeatedly add the remaining candidate of greatest improvement while
that improvement is positive. -/
def optimize_routes_iterative (candidates : List Line) (od : List ODRow)
    (tv : String → String → ℚ) (fleet_buses k_transfers : ℕ)
    (transfer_penalty_min : ℚ) : List Line :=
  let sorted := sortDescBy (fun ln : Line => ln.efficiency_score) candidates
  iterLoop od tv fleet_buses k_transfers transfer_penalty_min
    sorted.length [] sorted

/-- Per line wait time of the local total_cost of greedy_select_lines; only
the denominator max(len(subset), 1) differs from waitByLine. -/
def greedyWait (subset : List Line) (fleet : ℕ) (f_min : ℚ) : String → ℚ :=
  fun lid =>
    if (subset.map Line.line_id).contains lid then
      (1 / 2) * (60 / max f_min ((fleet : ℚ) / ((max subset.length 1 : ℕ) : ℚ)))
    else 0

/-- The local total_cost of greedy_select_lines: 1e9 for the empty subset,
otherwise the OD-weighted sum of routed costs with the direct fallback for
unreachable pairs. -/
def greedyTotalCost (od : List ODRow) (tv : String → String → ℚ)
    (fleet k : ℕ) (pen f_min : ℚ) (subset : List Line) : ℚ :=
  match subset with
  | [] => 1000000000
  | _ =>
    (od.map (fun r =>
      match shortest_time_k_transfers r.o r.d subset tv
          (greedyWait subset fleet f_min) pen k with
      | some best => r.demand * best
      | none => r.demand * (tv r.o r.d + pen))).sum

/-- The inner loop of greedy_select_lines: the remaining line of least new
cost, kept only when strictly below the running best (initially the cost of
the current selection). -/
def greedyPick (od : List ODRow) (tv : String → String → ℚ) (fleet k : ℕ)
    (pen f_min : ℚ) (sel : List Line) (rem : List Line) (base : ℚ) :
    Option Line × ℚ :=
  rem.foldl (fun acc ln =>
    let nc := greedyTotalCost od tv fleet k pen f_min (sel ++ [ln])
    if nc < acc.2 then (some ln, nc) else acc) (none, base)

/-- Selection loop of greedy_select_lines. -/
def greedyLoop (od : List ODRow) (tv : String → String → ℚ) (fleet k : ℕ)
    (pen f_min : ℚ) : ℕ → List Line → List Line → List Line
  | 0, sel, _ => sel
  | fuel + 1, sel, rem =>
    match rem with
    | [] => sel
    | _ =>
      match greedyPick od tv fleet k pen f_min sel rem
          (greedyTotalCost od tv fleet k pen f_min sel) with
      | (none, _) => sel
      | (some b, _) =>
          greedyLoop od tv fleet k pen f_min fuel (sel ++ [b]) (rem.erase b)

/-- greedy_select_lines: repeatedly add whichever remaining line most
reduces the OD-weighted total cost, stopping when no line reduces it. -/
def greedy_select_lines (od : List ODRow) (lines : List Line)
    (tv : String → String → ℚ) (fleet_buses k_transfers : ℕ)
    (transfer_penalty_min f_min : ℚ) : List Line :=
  greedyLoop od tv fleet_buses k_transfers transfer_penalty_min f_min
    lines.length [] lines

/-- Order-preserving deduplication, the semantics of pandas Series.unique:
first occurrences in order of appearance. -/
def uniqueFirst (l : List String) : List String :=
  l.foldl (fun acc x => if x ∈ acc then acc else acc ++ [x]) []

/-- Top 10 destinations of a source by descending OD demand. -/
def topDestinations (od : List ODRow) (source : String) : List String :=
  ((sortDescBy (fun r : ODRow => r.demand)
    (od.filter (fun r => r.o == source))).take 10).map (fun r => r.d)

/-- Lines serving a source, scored by (count of top destinations served,
efficiency), sorted descending lexicographically, top 3. -/
def relevantLines (candidates : List Line) (source : String)
    (topDest : List String) : List Line :=
  let scored := (candidates.filter (fun ln => ln.stops.contains source)).filterMap
    (fun ln =>
      let served := topDest.countP (fun dst => ln.stops.contains dst)
      if 0 < served then some (ln, served) else none)
  ((sortDescBy (fun p : Line × ℕ => toLex (p.2, p.1.efficiency_score))
    scored).take 3).map (fun p => p.1)

/-- First phase of optimize_routes_demand_driven: for each source in order,
append the first of its relevant lines whose identifier is not already used,
recording the used identifiers. -/
def ddPhase1 (sources : List String) (routesOf : String → List Line) :
    List Line × List String :=
  sources.foldl (fun acc source =>
    match (routesOf source).find? (fun r => !acc.2.contains r.line_id) with
    | some r => (acc.1 ++ [r], acc.2 ++ [r.line_id])
    | none => acc) ([], [])

/-- Sum over the selected lines of the number of distinct stops shared with
the candidate, i.e. len(set(line.stops) & set(sel.stops)) summed. -/
def overlapCount (line : Line) (selected : List Line) : ℕ :=
  (selected.map (fun s =>
    ((line.stops.dedup).filter (fun x => s.stops.contains x)).length)).sum

/-- Second phase of optimize_routes_demand_driven: scan the remaining lines
by descending efficiency, stop once fleet_buses // 2 lines are selected, and
append a line when its stop overlap with the selection is below 70 percent
of its stop count. -/
def ddPhase2 (fleet : ℕ) : List Line → List Line → List Line
  | sel, [] => sel
  | sel, l :: rest =>
    if fleet / 2 ≤ sel.length then sel
    else if (overlapCount l sel : ℚ) < (l.stops.length : ℚ) * (7 / 10) then
      ddPhase2 fleet (sel ++ [l]) rest
    else ddPhase2 fleet sel rest

/-- optimize_routes_demand_driven.  The routing parameters of the source
signature are accepted but never used: the policy reads only the OD rows and
the candidate metadata. -/
def optimize_routes_demand_driven (candidates : List Line) (od : List ODRow)
    (tv : String → String → ℚ) (fleet_buses k_transfers : ℕ)
    (transfer_penalty_min : ℚ) : List Line :=
  let sources := uniqueFirst (od.map (fun r => r.o))
  let phase1 := ddPhase1 sources
    (fun s => relevantLines candidates s (topDestinations od s))
  let remaining := sortDescBy (fun ln : Line => ln.efficiency_score)
    (candidates.filter (fun l => !phase1.2.contains l.line_id))
  ddPhase2 fleet_buses phase1.1 remaining

/-! ## Candidate line generation (build_hub_and_spoke_routes)

The great-circle distance haversine_km is trigonometric and is abstracted as
a function parameter hav of the four coordinates; travel time divides by
max(speed, 1e-6) and scales to minutes as in the source.  The source takes
the square root inside point_to_line_distance and euclidean-style formulas
only to compare against fixed thresholds, so the embedding compares the
squared distance against the squared threshold, which is equivalent for
nonnegative values.  Python set iteration order (inside the nearest-stop
greedy) and the unstable pandas sort_values tie order are refined to
deterministic list order. -/

/-- Membership of an identifier in the stop registry (sid in stops). -/
def stopMem (registry : List Stop) (sid : String) : Bool :=
  registry.any (fun st => st.stop_id == sid)

/-- Coordinates of a registered stop; the dict lets a later entry with the
same identifier overwrite an earlier one, so the last match wins.  The
source raises KeyError for unknown identifiers, which every call site
excludes; the embedding totalises with (0, 0). -/
def stopLatLon (registry : List Stop) (sid : String) : ℚ × ℚ :=
  match registry.reverse.find? (fun st => st.stop_id == sid) with
  | some st => (st.lat, st.lon)
  | none => (0, 0)

/-- Great-circle distance between two registered stops, through the
abstracted haversine function. -/
def havD (hav : ℚ → ℚ → ℚ → ℚ → ℚ) (registry : List Stop) (a b : String) :
    ℚ :=
  hav (stopLatLon registry a).1 (stopLatLon registry a).2
    (stopLatLon registry b).1 (stopLatLon registry b).2

/-- travel_minutes between two registered stops: distance divided by
max(speed, 1e-6), converted to minutes. -/
def travelD (hav : ℚ → ℚ → ℚ → ℚ → ℚ) (speed : ℚ) (registry : List Stop)
    (a b : String) : ℚ :=
  havD hav registry a b / max speed (1 / 1000000) * 60

/-- route_length_minutes: consecutive segment times plus the closing
segment from the last stop back to the first, inflated by the default 10
percent layover factor.  The source indexes the last element directly and
is never called on an empty order; the embedding returns 0 there. -/
def route_length_minutes (hav : ℚ → ℚ → ℚ → ℚ → ℚ) (speed : ℚ)
    (registry : List Stop) (stops_order : List String) : ℚ :=
  match stops_order with
  | [] => 0
  | s0 :: _ =>
    (((stops_order.zip stops_order.tail).map
        (fun p => travelD hav speed registry p.1 p.2)).sum +
      travelD hav speed registry (stops_order.getLastD "") s0) * (1 + 1 / 10)

/-- First element attaining the minimal key, as the Python builtin min on
the iteration order. -/
def pickMinBy (key : String → ℚ) : List String → Option String
  | [] => none
  | x :: xs => some (xs.foldl (fun best y => if key y < key best then y else best) x)

/-- Greedy nearest-neighbour extension loop of optimize_route_greedy. -/
def nearestLoop (key2 : String → String → ℚ) :
    ℕ → List String → List String → List String
  | 0, route, _ => route
  | fuel + 1, route, rem =>
    match rem with
    | [] => route
    | _ =>
      match pickMinBy (key2 (route.getLastD "")) rem with
      | some nxt => nearestLoop key2 fuel (route ++ [nxt]) (rem.erase nxt)
      | none => route

/-- optimize_route_greedy: keep short inputs unchanged, otherwise start
from the first stop and repeatedly append the nearest remaining distinct
stop (the source iterates a Python set, whose distinct members are modelled
in list order). -/
def optimize_route_greedy (hav : ℚ → ℚ → ℚ → ℚ → ℚ) (registry : List Stop)
    (stops : List String) : List String :=
  if stops.length ≤ 2 then stops
  else
    match stops with
    | [] => []
    | s0 :: _ =>
      let rem := (stops.dedup).erase s0
      nearestLoop (fun cur s => havD hav registry cur s) rem.length [s0] rem

/-- od.groupby(d)[demand].sum().to_dict(): per-destination demand sums with
keys in ascending order, as pandas groupby sorts keys. -/
def demandByStop (od : List ODRow) : List (String × ℚ) :=
  (sortAscBy (fun s => s) (uniqueFirst (od.map (fun r => r.d)))).map
    (fun key => (key, ((od.filter (fun r => r.d == key)).map
      (fun r => r.demand)).sum))

/-- demand_by_stop.get(sid, 0.0). -/
def getDemand (dbs : List (String × ℚ)) (sid : String) : ℚ :=
  match dbs.find? (fun p => p.1 == sid) with
  | some p => p.2
  | none => 0

/-- Square of point_to_line_distance: distance from a point to the segment
between two points in raw coordinate space; compared against the square of
the 0.01 threshold. -/
def point_to_line_distance_sq (point line_start line_end : ℚ × ℚ) : ℚ :=
  let A := point.1 - line_start.1
  let B := point.2 - line_start.2
  let C := line_end.1 - line_start.1
  let D := line_end.2 - line_start.2
  let len_sq := C * C + D * D
  if len_sq = 0 then A * A + B * B
  else
    let param := (A * C + B * D) / len_sq
    let xx := if param < 0 then line_start.1
      else if 1 < param then line_end.1 else line_start.1 + param * C
    let yy := if param < 0 then line_start.2
      else if 1 < param then line_end.2 else line_start.2 + param * D
    (point.1 - xx) * (point.1 - xx) + (point.2 - yy) * (point.2 - yy)

/-- One direct hub route per source: the top-8 destinations of the source
by demand, sequenced greedily, with cycle time, coverage and efficiency;
the counter numbers the line identifiers. -/
def hubRoute (hav : ℚ → ℚ → ℚ → ℚ → ℚ) (speed : ℚ) (registry : List Stop)
    (od : List ODRow) (dbs : List (String × ℚ)) (acc : List Line × ℕ)
    (source : String) : List Line × ℕ :=
  if stopMem registry source = false then acc
  else
    let top_dests := ((sortDescBy (fun r : ODRow => r.demand)
      (od.filter (fun r => r.o == source))).take 8).map (fun r => r.d)
    if top_dests = [] then acc
    else
      let route_stops := (source :: top_dests).filter (fun s => stopMem registry s)
      if route_stops.length < 2 then acc
      else
        let optimized := optimize_route_greedy hav registry route_stops
        let cyc := route_length_minutes hav speed registry optimized
        let cov := (optimized.map (fun sid => getDemand dbs sid)).sum
        (acc.1 ++ [⟨"H_" ++ toString acc.2, optimized, cyc, cov, cov / max cyc 1⟩],
          acc.2 + 1)

/-- One cross-campus route between adjacent hubs with up to 4 intermediate
high-demand stops close to the hub-to-hub segment. -/
def crossRoute (hav : ℚ → ℚ → ℚ → ℚ → ℚ) (speed : ℚ) (registry : List Stop)
    (dbs : List (String × ℚ)) (hub_stops : List String)
    (acc : List Line × ℕ) (i : ℕ) : List Line × ℕ :=
  let start := hub_stops.getD i ""
  let end2 := hub_stops.getD ((i + 1) % hub_stops.length) ""
  let cands := dbs.filterMap (fun p =>
    if stopMem registry p.1 ∧ p.1 ≠ start ∧ p.1 ≠ end2 ∧ 0 < p.2 ∧
        point_to_line_distance_sq (stopLatLon registry p.1)
          (stopLatLon registry start) (stopLatLon registry end2) < 1 / 10000
    then some p else none)
  let intermediate := ((sortDescBy (fun p : String × ℚ => p.2) cands).take 4).map
    (fun p => p.1)
  let route_stops := ((start :: intermediate) ++ [end2]).filter
    (fun s => stopMem registry s)
  if 3 ≤ route_stops.length then
    let optimized := optimize_route_greedy hav registry route_stops
    let cyc := route_length_minutes hav speed registry optimized
    let cov := (optimized.map (fun sid => getDemand dbs sid)).sum
    (acc.1 ++ [⟨"C_" ++ toString acc.2, optimized, cyc, cov, cov / max cyc 1⟩],
      acc.2 + 1)
  else acc

/-- One feeder route per top hub: up to 5 nearby positive-demand stops
within 0.5 km, ordered by demand descending then distance ascending. -/
def feederRoute (hav : ℚ → ℚ → ℚ → ℚ → ℚ) (speed : ℚ) (registry : List Stop)
    (dbs : List (String × ℚ)) (acc : List Line × ℕ) (hub : String) :
    List Line × ℕ :=
  if stopMem registry hub = false then acc
  else
    let nearby := dbs.filterMap (fun p =>
      if stopMem registry p.1 ∧ p.1 ≠ hub ∧ 0 < p.2 then
        (if havD hav registry hub p.1 < 1 / 2 then
          some (p.1, p.2, havD hav registry hub p.1) else none)
      else none)
    let selected := ((sortDescBy (fun p : String × ℚ × ℚ => toLex (p.2.1, -p.2.2))
      nearby).take 5).map (fun p => p.1)
    if selected = [] then acc
    else
      let optimized := optimize_route_greedy hav registry (hub :: selected)
      let cyc := route_length_minutes hav speed registry optimized
      let cov := (optimized.map (fun sid => getDemand dbs sid)).sum
      (acc.1 ++ [⟨"F_" ++ toString acc.2, optimized, cyc, cov, cov / max cyc 1⟩],
        acc.2 + 1)

/-- build_hub_and_spoke_routes: hub routes per source, cross routes between
adjacent hubs, feeder routes around the top 3 hubs, then sort all candidates
by efficiency descending and truncate to target_lines. -/
def build_hub_and_spoke_routes (hav : ℚ → ℚ → ℚ → ℚ → ℚ)
    (registry : List Stop) (od : List ODRow) (target_lines : ℕ) (speed : ℚ) :
    List Line :=
  let dbs := demandByStop od
  let sorted_stops := sortDescBy (fun p : String × ℚ => p.2) dbs
  let hub_stops := (sorted_stops.take (min 6 sorted_stops.length)).filterMap
    (fun p => if 0 < p.2 ∧ stopMem registry p.1 then some p.1 else none)
  let source_stops := (registry.filter (fun st => st.kind == "source")).map
    (fun st => st.stop_id)
  let after_hub := source_stops.foldl (hubRoute hav speed registry od dbs) ([], 0)
  let after_cross :=
    if 2 ≤ hub_stops.length then
      (List.range (min 3 (hub_stops.length - 1))).foldl
        (crossRoute hav speed registry dbs hub_stops) after_hub
    else after_hub
  let after_feeder := (hub_stops.take 3).foldl
    (feederRoute hav speed registry dbs) after_cross
  (sortDescBy (fun ln : Line => ln.efficiency_score) after_feeder.1).take
    target_lines

/-- Specification of a run of the iterative marginal-gain selection from a
selection and a remaining pool to a final selection: at every step each
remaining candidate is evaluated, one of maximal improvement is chosen and
appended only when its improvement is positive, and the run stops exactly
when no remaining candidate has positive improvement (vacuously so when the
pool is exhausted). -/
inductive IterRun (od : List ODRow) (tv : String → String → ℚ)
    (fleet k : ℕ) (pen : ℚ) : List Line → List Line → List Line → Prop
  | pick (sel rem out : List Line) (b : Line)
      (hb : b ∈ rem)
      (hmax : ∀ l ∈ rem, iterImprovement od tv fleet k pen sel l ≤
        iterImprovement od tv fleet k pen sel b)
      (hpos : 0 < iterImprovement od tv fleet k pen sel b)
      (hrec : IterRun od tv fleet k pen (sel ++ [b]) (rem.erase b) out) :
      IterRun od tv fleet k pen sel rem out
  | stop (sel rem : List Line)
      (hng : ∀ l ∈ rem, iterImprovement od tv fleet k pen sel l ≤ 0) :
      IterRun od tv fleet k pen sel rem sel

/-! ## Theorems -/

lemma minCosts_nil : minCosts [] = none := rfl

lemma minCosts_cons (a : ℚ) (t : List ℚ) :
    minCosts (a :: t) =
      match minCosts t with
      | none => some a
      | some m => some (min a m) := rfl

lemma minCosts_mem {l : List ℚ} {m : ℚ} (h : minCosts l = some m) : m ∈ l := by
  induction l with
  | nil => simp [minCosts_nil] at h
  | cons a t ih =>
    rw [minCosts_cons] at h
    cases ht : minCosts t with
    | none =>
      rw [ht] at h
      simp at h
      simp [h]
    | some m' =>
      rw [ht] at h
      simp at h
      rcases min_choice a m' with hc | hc
      · have hma : m = a := by rw [← h, hc]
        rw [hma]
        exact List.mem_cons_self a t
      · have hmm : m = m' := by rw [← h, hc]
        exact List.mem_cons_of_mem a (ih (by rw [ht, hmm]))

lemma minCosts_le_of_mem {l : List ℚ} {x : ℚ} (h : x ∈ l) :
    ∃ m, minCosts l = some m ∧ m ≤ x := by
  induction l with
  | nil => simp at h
  | cons a t ih =>
    rcases List.mem_cons.mp h with rfl | hx
    · cases ht : minCosts t with
      | none => exact ⟨x, by rw [minCosts_cons, ht], le_refl x⟩
      | some m' => exact ⟨min x m', by rw [minCosts_cons, ht], min_le_left _ _⟩
    · obtain ⟨m', hm', hle⟩ := ih hx
      cases htm : minCosts t with
      | none => rw [htm] at hm'; exact absurd hm' (by simp)
      | some mt =>
        rw [htm] at hm'
        injection hm' with h2
        exact ⟨min a mt, by rw [minCosts_cons, htm],
          le_trans (min_le_right a mt) (by rw [h2]; exact hle)⟩

lemma infLE_minCosts {l₁ l₂ : List ℚ} (h : ∀ x ∈ l₁, x ∈ l₂) :
    infLE (minCosts l₂) (minCosts l₁) := by
  cases h1 : minCosts l₁ with
  | none => simp [infLE]
  | some m =>
    obtain ⟨m₂, hm₂, hle⟩ := minCosts_le_of_mem (h m (minCosts_mem h1))
    rw [hm₂]
    exact hle

lemma mem_pathCosts_frontier {step : RState × ℚ → List (RState × ℚ)}
    {n : ℕ} {fr : List (RState × ℚ)} {e : RState × ℚ} (h : e ∈ fr) :
    e ∈ pathCosts step n fr := by
  cases n with
  | zero => exact h
  | succ m => exact List.mem_append_left _ h

lemma pathCosts_mono_fuel {step : RState × ℚ → List (RState × ℚ)}
    {n m : ℕ} (hnm : n ≤ m) {fr : List (RState × ℚ)} {e : RState × ℚ}
    (h : e ∈ pathCosts step n fr) : e ∈ pathCosts step m fr := by
  induction n generalizing m fr with
  | zero => exact mem_pathCosts_frontier h
  | succ n ih =>
    obtain ⟨m', rfl⟩ := Nat.exists_eq_add_of_le hnm
    rw [show n + 1 + m' = (n + m') + 1 by ring]
    rcases List.mem_append.mp h with hf | hr
    · exact List.mem_append_left _ hf
    · exact List.mem_append_right _ (ih (Nat.le_add_right n m') hr)

lemma pathCosts_mono_step {step₁ step₂ : RState × ℚ → List (RState × ℚ)}
    (hstep : ∀ s, ∀ x ∈ step₁ s, x ∈ step₂ s) {n : ℕ}
    {fr₁ fr₂ : List (RState × ℚ)} (hfr : ∀ x ∈ fr₁, x ∈ fr₂)
    {e : RState × ℚ} (h : e ∈ pathCosts step₁ n fr₁) :
    e ∈ pathCosts step₂ n fr₂ := by
  induction n generalizing fr₁ fr₂ with
  | zero => exact hfr e h
  | succ n ih =>
    rcases List.mem_append.mp h with hf | hr
    · exact List.mem_append_left _ (hfr e hf)
    · refine List.mem_append_right _ (ih ?_ hr)
      intro x hx
      obtain ⟨s, hs, hxs⟩ := List.mem_flatMap.mp hx
      exact List.mem_flatMap.mpr ⟨s, hfr s hs, hstep s x hxs⟩

lemma rSucc_mono_k {tv : String → String → ℚ} {lines : List Line}
    {wait : String → ℚ} {pen : ℚ} {k : ℕ} {st : RState × ℚ}
    {x : RState × ℚ} (h : x ∈ rSucc tv lines wait pen k st) :
    x ∈ rSucc tv lines wait pen (k + 1) st := by
  unfold rSucc at h ⊢
  rcases List.mem_append.mp h with hf | ht
  · exact List.mem_append_left _ hf
  · refine List.mem_append_right _ ?_
    by_cases hk : st.1.2.2 < k
    · rw [if_pos hk] at ht
      rw [if_pos (Nat.lt_succ_of_lt hk)]
      exact ht
    · rw [if_neg hk] at ht
      simp at ht

/-- C2: for every origin, destination, line set, travel-time function,
wait-time map, transfer penalty and transfer bound k, the routing cost with
bound k is at least the routing cost with bound k+1, infinity (none) being
the unreachable value. -/
theorem shortest_time_k_transfers_monotone_k
    (o d : String) (lines : List Line) (tv : String → String → ℚ)
    (wait : String → ℚ) (pen : ℚ) (k : ℕ) :
    infLE (shortest_time_k_transfers o d lines tv wait pen (k + 1))
      (shortest_time_k_transfers o d lines tv wait pen k) := by
  cases lines with
  | nil => simp [shortest_time_k_transfers, infLE]
  | cons l ls =>
    unfold shortest_time_k_transfers
    by_cases hc : stop2linesAll (l :: ls) o = [] ∨ stop2linesAll (l :: ls) d = []
    · rw [if_pos hc, if_pos hc]
      simp [infLE]
    · rw [if_neg hc, if_neg hc]
      apply infLE_minCosts
      intro x hx
      obtain ⟨e, he, rfl⟩ := List.mem_map.mp hx
      refine List.mem_map.mpr ⟨e, ?_, rfl⟩
      obtain ⟨hent, hstop⟩ := List.mem_filter.mp he
      refine List.mem_filter.mpr ⟨?_, hstop⟩
      have h1 : e ∈ pathCosts (rSucc tv (l :: ls) wait pen (k + 1))
          ((k + 1) * ((l :: ls).map (fun ln => ln.stops.length)).sum)
          ((stop2linesAll (l :: ls) o).map
            (fun lid => ((lid, lastIndexOn (lineStopsOf (l :: ls) lid) o, 0), wait lid))) :=
        pathCosts_mono_step (fun s x hx => rSucc_mono_k hx) (fun x hx => hx) hent
      exact pathCosts_mono_fuel
        (Nat.mul_le_mul_right _ (Nat.le_succ _)) h1

/-- C6: with an empty line set the evaluator returns the sentinel triple
(1e9, 0, 0) — coverage 0 and a sentinel-high cost — instead of raising, and
the router reports every origin-destination pair as unreachable (none). -/
theorem degenerate_empty_lines_sentinel :
    (∀ od tv fleet k pen fmin,
        evaluate_solution_improved [] od tv fleet k pen fmin = (1000000000, 0, 0))
    ∧ (∀ o d tv wait pen k,
        shortest_time_k_transfers o d [] tv wait pen k = none) :=
  ⟨fun _ _ _ _ _ _ => rfl, fun _ _ _ _ _ _ => rfl⟩

lemma odRowCost_of_some {lines : List Line} {tv : String → String → ℚ}
    {wait : String → ℚ} {pen : ℚ} {k : ℕ} {row : ODRow} {best : ℚ}
    (h : shortest_time_k_transfers row.o row.d lines tv wait pen k = some best) :
    odRowCost lines tv wait pen k row = row.demand * best := by
  simp [odRowCost, h]

lemma odRowCost_of_none {lines : List Line} {tv : String → String → ℚ}
    {wait : String → ℚ} {pen : ℚ} {k : ℕ} {row : ODRow}
    (h : shortest_time_k_transfers row.o row.d lines tv wait pen k = none) :
    odRowCost lines tv wait pen k row = row.demand * (tv row.o row.d + pen) := by
  simp [odRowCost, h]

lemma coveredOf_cons_some {lines : List Line} {tv : String → String → ℚ}
    {wait : String → ℚ} {pen : ℚ} {k : ℕ} {r : ODRow} {t : List ODRow}
    {best : ℚ}
    (h : shortest_time_k_transfers r.o r.d lines tv wait pen k = some best) :
    coveredOf lines tv wait pen k (r :: t) =
      r.demand + coveredOf lines tv wait pen k t := by
  simp [coveredOf, List.filter_cons, h]

lemma coveredOf_cons_none {lines : List Line} {tv : String → String → ℚ}
    {wait : String → ℚ} {pen : ℚ} {k : ℕ} {r : ODRow} {t : List ODRow}
    (h : shortest_time_k_transfers r.o r.d lines tv wait pen k = none) :
    coveredOf lines tv wait pen k (r :: t) = coveredOf lines tv wait pen k t := by
  simp [coveredOf, List.filter_cons, h]

lemma evalStep_foldl (lines : List Line) (tv : String → String → ℚ)
    (wait : String → ℚ) (pen : ℚ) (k : ℕ) (od : List ODRow) :
    ∀ a b c : ℚ,
      od.foldl (evalStep lines tv wait pen k) (a, b, c) =
        (a + (od.map (odRowCost lines tv wait pen k)).sum,
          b + (od.map (fun r => r.demand)).sum,
          c + coveredOf lines tv wait pen k od) := by
  induction od with
  | nil => intro a b c; simp [coveredOf]
  | cons r t ih =>
    intro a b c
    rw [List.foldl_cons]
    cases hrt : shortest_time_k_transfers r.o r.d lines tv wait pen k with
    | some best =>
      have hstep : evalStep lines tv wait pen k (a, b, c) r =
          (a + r.demand * best, b + r.demand, c + r.demand) := by
        simp [evalStep, hrt]
      rw [hstep, ih, coveredOf_cons_some hrt]
      simp only [List.map_cons, List.sum_cons, Prod.mk.injEq,
        odRowCost_of_some hrt]
      refine ⟨by ring, by ring, by ring⟩
    | none =>
      have hstep : evalStep lines tv wait pen k (a, b, c) r =
          (a + r.demand * (tv r.o r.d + pen), b + r.demand, c) := by
        simp [evalStep, hrt]
      rw [hstep, ih, coveredOf_cons_none hrt]
      simp only [List.map_cons, List.sum_cons, Prod.mk.injEq,
        odRowCost_of_none hrt]
      exact ⟨by ring, by ring, trivial⟩

/-- C1: for a nonempty line set the evaluator returns exactly the triple
(total cost, covered demand / max(total demand, 1), covered demand /
max(total cost, 1)) in which every OD row with an unreachable pair
contributes demand * (direct travel time + flat transfer penalty) to total
cost and nothing to covered demand (odRowCost and coveredOf make that
fallback explicit); total cost is a rational number, hence finite, for every
line set and OD matrix, and the evaluator is a total function that never
raises on disconnected topology. -/
theorem evaluate_solution_improved_closed_form
    (lines : List Line) (od : List ODRow) (tv : String → String → ℚ)
    (fleet : ℕ) (k : ℕ) (pen : ℚ) (fmin : ℚ) (hne : lines ≠ []) :
    evaluate_solution_improved lines od tv fleet k pen fmin =
      ((od.map (odRowCost lines tv (waitByLine lines fleet fmin) pen k)).sum,
        coveredOf lines tv (waitByLine lines fleet fmin) pen k od /
          max ((od.map (fun r => r.demand)).sum) 1,
        coveredOf lines tv (waitByLine lines fleet fmin) pen k od /
          max ((od.map (odRowCost lines tv (waitByLine lines fleet fmin) pen k)).sum) 1) := by
  cases lines with
  | nil => exact absurd rfl hne
  | cons l ls =>
    simp only [evaluate_solution_improved, evalStep_foldl]
    simp

/-- Witness for C1 at a concrete input: one line serving a and b, one OD row
with an unreachable destination z, so the row contributes the fallback
2 * (tv + penalty) = 2 * (7 + 5) = 24 and covered demand stays 0. -/
theorem evaluate_solution_improved_closed_form_witness :
    ((⟨"L1", ["a", "b"], 10, 0, 0⟩ : Line) :: []) ≠ [] ∧
      evaluate_solution_improved [⟨"L1", ["a", "b"], 10, 0, 0⟩]
        [⟨"a", "z", 2⟩] (fun _ _ => 7) 4 1 5 1 =
      (([(⟨"a", "z", 2⟩ : ODRow)].map
          (odRowCost [⟨"L1", ["a", "b"], 10, 0, 0⟩] (fun _ _ => 7)
            (waitByLine [⟨"L1", ["a", "b"], 10, 0, 0⟩] 4 1) 5 1)).sum,
        coveredOf [⟨"L1", ["a", "b"], 10, 0, 0⟩] (fun _ _ => 7)
            (waitByLine [⟨"L1", ["a", "b"], 10, 0, 0⟩] 4 1) 5 1 [⟨"a", "z", 2⟩] /
          max (([(⟨"a", "z", 2⟩ : ODRow)].map (fun r => r.demand)).sum) 1,
        coveredOf [⟨"L1", ["a", "b"], 10, 0, 0⟩] (fun _ _ => 7)
            (waitByLine [⟨"L1", ["a", "b"], 10, 0, 0⟩] 4 1) 5 1 [⟨"a", "z", 2⟩] /
          max (([(⟨"a", "z", 2⟩ : ODRow)].map
            (odRowCost [⟨"L1", ["a", "b"], 10, 0, 0⟩] (fun _ _ => 7)
              (waitByLine [⟨"L1", ["a", "b"], 10, 0, 0⟩] 4 1) 5 1)).sum) 1) :=
  ⟨by simp, evaluate_solution_improved_closed_form
    [⟨"L1", ["a", "b"], 10, 0, 0⟩] [⟨"a", "z", 2⟩] (fun _ _ => 7) 4 1 5 1 (by simp)⟩

lemma build_equal_split_od_cons (a : SourceRow) (t : List SourceRow)
    (dests : List DestRow) :
    build_equal_split_od (a :: t) dests =
      (if dests.length = 0 then []
        else dests.map (fun d =>
          (⟨a.stop_id, d.stop_id, a.demand / (dests.length : ℚ)⟩ : ODRow))) ++
        build_equal_split_od t dests := rfl

lemma equal_split_block_filter_ne (aid : String) (q : ℚ) (dests : List DestRow)
    (key : String) (h : aid ≠ key) :
    ((if dests.length = 0 then []
      else dests.map (fun d => (⟨aid, d.stop_id, q⟩ : ODRow))).filter
        (fun r => r.o == key)) = [] := by
  by_cases hd : dests.length = 0
  · simp [hd]
  · rw [if_neg hd, List.filter_map]
    have : (fun r : ODRow => r.o == key) ∘ (fun d : DestRow => (⟨aid, d.stop_id, q⟩ : ODRow)) =
        fun _ => false := by
      funext d
      simp [h]
    rw [this]
    simp

lemma equal_split_filter_ne (t : List SourceRow) (dests : List DestRow)
    (key : String) (h : ∀ x ∈ t, x.stop_id ≠ key) :
    (build_equal_split_od t dests).filter (fun r => r.o == key) = [] := by
  induction t with
  | nil => rfl
  | cons a t2 ih =>
    rw [build_equal_split_od_cons, List.filter_append,
      equal_split_block_filter_ne a.stop_id _ dests key (h a (List.mem_cons_self a t2)),
      ih (fun x hx => h x (List.mem_cons_of_mem a hx))]
    rfl

/-- C4: for every source appearing in a source table with pairwise distinct
identifiers and a nonempty destination table, the demands of the OD rows
with that origin sum exactly (in rational arithmetic) to the total demand of
the source, before any rounding. -/
theorem build_equal_split_od_row_sum (sources : List SourceRow)
    (destinations : List DestRow) (s : SourceRow) (hs : s ∈ sources)
    (hnd : (sources.map (fun x => x.stop_id)).Nodup)
    (hne : destinations ≠ []) :
    (((build_equal_split_od sources destinations).filter
        (fun r => r.o == s.stop_id)).map (fun r => r.demand)).sum = s.demand := by
  have hn0 : ((destinations.length : ℚ)) ≠ 0 := by
    simpa using fun h0 => hne (List.length_eq_zero.mp h0)
  induction sources with
  | nil => simp at hs
  | cons a t ih =>
    rw [List.map_cons, List.nodup_cons] at hnd
    rcases List.mem_cons.mp hs with heq | hst
    · subst heq
      rw [build_equal_split_od_cons, List.filter_append, List.map_append,
        List.sum_append]
      have htail : (build_equal_split_od t destinations).filter
          (fun r => r.o == s.stop_id) = [] := by
        refine equal_split_filter_ne t destinations s.stop_id (fun x hx hxe => ?_)
        exact hnd.1 (hxe ▸ List.mem_map_of_mem (fun y => y.stop_id) hx)
      rw [htail]
      have hblock : ((if destinations.length = 0 then []
          else destinations.map (fun d =>
            (⟨s.stop_id, d.stop_id, s.demand / (destinations.length : ℚ)⟩ : ODRow))).filter
            (fun r => r.o == s.stop_id)) =
          destinations.map (fun d =>
            (⟨s.stop_id, d.stop_id, s.demand / (destinations.length : ℚ)⟩ : ODRow)) := by
        rw [if_neg (fun h0 => hne (List.length_eq_zero.mp h0)), List.filter_map]
        have : (fun r : ODRow => r.o == s.stop_id) ∘
            (fun d : DestRow =>
              (⟨s.stop_id, d.stop_id, s.demand / (destinations.length : ℚ)⟩ : ODRow)) =
            fun _ => true := by
          funext d
          simp
        rw [this, List.filter_true]
      rw [hblock, List.map_map]
      have : ((fun r : ODRow => r.demand) ∘
          (fun d : DestRow =>
            (⟨s.stop_id, d.stop_id, s.demand / (destinations.length : ℚ)⟩ : ODRow))) =
          fun _ => s.demand / (destinations.length : ℚ) := rfl
      rw [this, List.map_const', List.sum_replicate, nsmul_eq_mul]
      field_simp
    · have hane : a.stop_id ≠ s.stop_id := by
        intro he
        exact hnd.1 (he ▸ List.mem_map_of_mem (fun y => y.stop_id) hst)
      rw [build_equal_split_od_cons, List.filter_append,
        equal_split_block_filter_ne a.stop_id _ destinations s.stop_id hane]
      rw [List.nil_append]
      exact ih hst hnd.2

/-- Witness for C4: a single source A with demand 6 split over three
destinations; the three OD rows with origin A sum back to 6. -/
theorem build_equal_split_od_row_sum_witness :
    (⟨"A", 6⟩ : SourceRow) ∈ [(⟨"A", 6⟩ : SourceRow)] ∧
      (((build_equal_split_od [⟨"A", 6⟩] [⟨"x"⟩, ⟨"y"⟩, ⟨"z"⟩]).filter
        (fun r => r.o == "A")).map (fun r => r.demand)).sum =
        (6 : ℚ) :=
  ⟨by simp, build_equal_split_od_row_sum [⟨"A", 6⟩] [⟨"x"⟩, ⟨"y"⟩, ⟨"z"⟩]
    ⟨"A", 6⟩ (by simp) (by simp) (by simp)⟩

lemma lineStopsOf_single (ln : Line) : lineStopsOf [ln] ln.line_id = ln.stops := by
  simp [lineStopsOf, findLineLast]

lemma adjTimesOf_single_length (tv : String → String → ℚ) (ln : Line) :
    (adjTimesOf tv [ln] ln.line_id).length = ln.stops.length - 1 := by
  simp [adjTimesOf, lineStopsOf_single, List.length_zip, List.length_tail]

lemma pathCosts_nil (step : RState × ℚ → List (RState × ℚ)) (fuel : ℕ) :
    pathCosts step fuel [] = [] := by
  induction fuel with
  | zero => rfl
  | succ n ih => simp [pathCosts, ih]

lemma minCosts_append (l₁ l₂ : List ℚ) :
    minCosts (l₁ ++ l₂) =
      match minCosts l₁, minCosts l₂ with
      | none, m => m
      | some m, none => some m
      | some m₁, some m₂ => some (min m₁ m₂) := by
  induction l₁ with
  | nil =>
    rw [List.nil_append, minCosts_nil]
  | cons a t ih =>
    rw [List.cons_append, minCosts_cons, ih, minCosts_cons]
    cases minCosts t <;> cases minCosts l₂ <;> simp [min_assoc]

lemma segSum_self (adj : List ℚ) (i : ℕ) : segSum adj i i = 0 := by
  simp [segSum]

lemma segSum_succ (adj : List ℚ) (i j : ℕ) (hij : i < j) (hi : i < adj.length) :
    segSum adj i j = adj.getD i 0 + segSum adj (i + 1) j := by
  unfold segSum
  rw [List.drop_eq_getElem_cons hi]
  have hji : j - i = (j - (i + 1)) + 1 := by omega
  rw [hji, List.take_succ_cons, List.sum_cons, List.getD_eq_getElem adj 0 hi]

lemma lastIndexOn_nodup {l : List String} (hnd : l.Nodup) {i : ℕ}
    (hi : i < l.length) {s : String} (he : l[i] = s) : lastIndexOn l s = i := by
  have hj : l.length - 1 - i < l.reverse.length := by
    rw [List.length_reverse]; omega
  have hrev : l.reverse.get ⟨l.length - 1 - i, hj⟩ = s := by
    rw [List.get_eq_getElem, List.getElem_reverse]
    have : l.length - 1 - (l.length - 1 - i) = i := by omega
    simp only [this]
    exact he
  have hidx : l.reverse.indexOf s = l.length - 1 - i := by
    have := List.get_indexOf (List.nodup_reverse.mpr hnd) ⟨l.length - 1 - i, hj⟩
    rw [hrev] at this
    exact this
  unfold lastIndexOn
  rw [hidx]
  omega

lemma stateStop_single (ln : Line) (i k : ℕ) :
    stateStop [ln] (ln.line_id, i, k) = ln.stops.getD i "" := by
  simp [stateStop, lineStopsOf_single]

lemma rSucc_single (ln : Line) (tv : String → String → ℚ) (wait : String → ℚ)
    (pen : ℚ) (i : ℕ) (c : ℚ) :
    rSucc tv [ln] wait pen 0 ((ln.line_id, i, 0), c) =
      if i + 1 < ln.stops.length then
        [((ln.line_id, i + 1, 0), c + (adjTimesOf tv [ln] ln.line_id).getD i 0)]
      else [] := by
  unfold rSucc
  simp [lineStopsOf_single]

lemma singleChain (ln : Line) (tv : String → String → ℚ) (wait : String → ℚ)
    (pen : ℚ) (d : String) (id2 : ℕ) (hnd : ln.stops.Nodup)
    (hid : id2 < ln.stops.length) (hd : ln.stops.getD id2 "" = d) :
    ∀ (fuel i : ℕ) (c : ℚ), i < ln.stops.length →
      minCosts (((pathCosts (rSucc tv [ln] wait pen 0) fuel
          [((ln.line_id, i, 0), c)]).filter
          (fun e => stateStop [ln] e.1 == d)).map Prod.snd) =
        (if i ≤ id2 ∧ id2 ≤ i + fuel then
          some (c + segSum (adjTimesOf tv [ln] ln.line_id) i id2)
        else none) := by
  have hstop : ∀ i : ℕ, i < ln.stops.length →
      ((ln.stops.getD i "" == d) = true ↔ i = id2) := by
    intro i hi
    rw [beq_iff_eq, List.getD_eq_getElem _ _ hi]
    constructor
    · intro he
      have hd2 : ln.stops[id2] = d := by
        rw [← List.getD_eq_getElem ln.stops "" hid]; exact hd
      exact (hnd.getElem_inj_iff).mp (by rw [he, hd2])
    · intro he
      subst he
      rw [← List.getD_eq_getElem ln.stops "" hi]; exact hd
  intro fuel
  induction fuel with
  | zero =>
    intro i c hi
    show minCosts (([((ln.line_id, i, 0), c)].filter
        (fun e => stateStop [ln] e.1 == d)).map Prod.snd) = _
    by_cases hieq : i = id2
    · subst hieq
      rw [List.filter_cons_of_pos (by
        rw [stateStop_single]; exact (hstop i hi).mpr rfl)]
      rw [if_pos ⟨le_refl i, by omega⟩, segSum_self, add_zero]
      rfl
    · rw [List.filter_cons_of_neg (by
        rw [stateStop_single]
        intro hcon
        exact hieq ((hstop i hi).mp hcon))]
      rw [if_neg (by omega)]
      rfl
  | succ f ih =>
    intro i c hi
    simp only [pathCosts]
    rw [List.filter_append, List.map_append, minCosts_append]
    have hflat : ([((ln.line_id, i, 0), c)].flatMap (rSucc tv [ln] wait pen 0)) =
        rSucc tv [ln] wait pen 0 ((ln.line_id, i, 0), c) := by
      simp
    rw [hflat, rSucc_single]
    by_cases hfw : i + 1 < ln.stops.length
    · rw [if_pos hfw]
      rw [ih (i + 1) (c + (adjTimesOf tv [ln] ln.line_id).getD i 0) hfw]
      by_cases hieq : i = id2
      · subst hieq
        rw [List.filter_cons_of_pos (by
          rw [stateStop_single]; exact (hstop i hi).mpr rfl)]
        rw [if_neg (by omega), if_pos ⟨le_refl i, by omega⟩, segSum_self, add_zero]
        rfl
      · rw [List.filter_cons_of_neg (by
          rw [stateStop_single]
          intro hcon
          exact hieq ((hstop i hi).mp hcon))]
        by_cases hcond : i + 1 ≤ id2 ∧ id2 ≤ i + 1 + f
        · rw [if_pos hcond, if_pos (by omega)]
          show some (c + (adjTimesOf tv [ln] ln.line_id).getD i 0 +
              segSum (adjTimesOf tv [ln] ln.line_id) (i + 1) id2) =
            some (c + segSum (adjTimesOf tv [ln] ln.line_id) i id2)
          have hseg : segSum (adjTimesOf tv [ln] ln.line_id) i id2 =
              (adjTimesOf tv [ln] ln.line_id).getD i 0 +
                segSum (adjTimesOf tv [ln] ln.line_id) (i + 1) id2 := by
            refine segSum_succ _ i id2 (by omega) ?_
            rw [adjTimesOf_single_length]
            omega
          exact congrArg some (by rw [hseg]; ring)
        · rw [if_neg hcond, if_neg (by omega)]
          rfl
    · rw [if_neg hfw, pathCosts_nil]
      by_cases hieq : i = id2
      · subst hieq
        rw [List.filter_cons_of_pos (by
          rw [stateStop_single]; exact (hstop i hi).mpr rfl)]
        rw [if_pos ⟨le_refl i, by omega⟩, segSum_self, add_zero]
        rfl
      · rw [List.filter_cons_of_neg (by
          rw [stateStop_single]
          intro hcon
          exact hieq ((hstop i hi).mp hcon))]
        rw [if_neg (by omega)]
        rfl

lemma stop2linesAll_single (ln : Line) (x : String) :
    stop2linesAll [ln] x =
      (ln.stops.filter (fun y => y == x)).map (fun _ => ln.line_id) := by
  simp [stop2linesAll]

lemma stop2linesAll_single_of_mem {ln : Line} {x : String}
    (hnd : ln.stops.Nodup) (hx : x ∈ ln.stops) :
    stop2linesAll [ln] x = [ln.line_id] := by
  rw [stop2linesAll_single, List.filter_beq, List.count_eq_one_of_mem hnd hx]
  rfl

/-- C3: when the line set consists of a single line with pairwise distinct
stops carrying o at position io and d at position id2 with io ≤ id2, the
router with transfer bound 0 returns exactly the initial wait of that line
plus the sum of the along-line segment travel times from the position of o
to the position of d; the transfer penalty does not appear in the result. -/
theorem shortest_time_k_transfers_single_line
    (ln : Line) (tv : String → String → ℚ) (wait : String → ℚ) (pen : ℚ)
    (o d : String) (io id2 : ℕ) (hnd : ln.stops.Nodup)
    (hio : io < ln.stops.length) (hid : id2 < ln.stops.length)
    (ho : ln.stops.getD io "" = o) (hd : ln.stops.getD id2 "" = d)
    (hle : io ≤ id2) :
    shortest_time_k_transfers o d [ln] tv wait pen 0 =
      some (wait ln.line_id + segSum (adjTimesOf tv [ln] ln.line_id) io id2) := by
  have hoe : ln.stops[io] = o := by rw [← List.getD_eq_getElem ln.stops "" hio]; exact ho
  have hde : ln.stops[id2] = d := by rw [← List.getD_eq_getElem ln.stops "" hid]; exact hd
  have ho2 : o ∈ ln.stops := by rw [← hoe]; exact List.getElem_mem hio
  have hd2 : d ∈ ln.stops := by rw [← hde]; exact List.getElem_mem hid
  have hso : stop2linesAll [ln] o = [ln.line_id] := stop2linesAll_single_of_mem hnd ho2
  have hsd : stop2linesAll [ln] d = [ln.line_id] := stop2linesAll_single_of_mem hnd hd2
  have hlast : lastIndexOn ln.stops o = io := lastIndexOn_nodup hnd hio hoe
  simp only [shortest_time_k_transfers, hso, hsd]
  rw [if_neg (by simp)]
  simp only [List.map_cons, List.map_nil, lineStopsOf_single, hlast]
  have hfuel : (0 + 1) * ([ln.stops.length] : List ℕ).sum = ln.stops.length := by
    simp
  rw [hfuel]
  rw [singleChain ln tv wait pen d id2 hnd hid hd ln.stops.length io
    (wait ln.line_id) hio]
  rw [if_pos ⟨hle, by omega⟩]

/-- Witness for C3: the three stop line a-b-c with o = a at position 0 and
d = c at position 2. -/
theorem shortest_time_k_transfers_single_line_witness :
    ((["a", "b", "c"] : List String).Nodup ∧ 0 < 3 ∧ 2 < 3 ∧ (0 : ℕ) ≤ 2) ∧
      shortest_time_k_transfers "a" "c" [⟨"L", ["a", "b", "c"], 1, 0, 0⟩]
        (fun _ _ => 7) (fun _ => 3) 5 0 =
        some ((3 : ℚ) +
          segSum (adjTimesOf (fun _ _ => 7) [⟨"L", ["a", "b", "c"], 1, 0, 0⟩] "L") 0 2) :=
  ⟨⟨by decide, by decide, by decide, by decide⟩,
    shortest_time_k_transfers_single_line ⟨"L", ["a", "b", "c"], 1, 0, 0⟩
      (fun _ _ => 7) (fun _ => 3) 5 "a" "c" 0 2 (by decide) (by decide) (by decide)
      (by decide) (by decide) (by decide)⟩

/-- C7: for inputs with at least 3 stops, every output demand is at least
the clip floor 10, the nearest-stop selection of every building picks
exactly 3 stops (each of which receives demand / 3 by stepBuilding), and in
the concrete scenario of one building of demand 30 with exactly 3 stops the
pre-rounding increment of every stop is exactly 30 / 3 = 10. -/
theorem distribute_demand_floor_and_split (buildings : List Building)
    (ss : List StopRow) (h3 : 3 ≤ ss.length) :
    (∀ p ∈ distribute_demand buildings ss, 10 ≤ p.2) ∧
      (∀ b : Building, (nearest3 b ss).length = 3) ∧
      preRoundTotals [⟨0, 0, 30⟩]
        [⟨"s1", 0, 0⟩, ⟨"s2", 0, 1⟩, ⟨"s3", 1, 0⟩] = [10, 10, 10] := by
  refine ⟨?_, ?_, ?_⟩
  · intro p hp
    obtain ⟨q, hq, rfl⟩ := List.mem_map.mp hp
    obtain ⟨_, hq2⟩ := List.of_mem_zip hq
    obtain ⟨t, _, ht⟩ := List.mem_map.mp hq2
    rw [← ht]
    exact le_max_right _ _
  · intro b
    rw [nearest3, List.length_map, List.length_take]
    have hperm := List.perm_insertionSort
      (fun a b2 : ℕ × StopRow =>
        euclidean_distance_sq b.latitude b.longitude a.2.stop_lat a.2.stop_lon ≤
          euclidean_distance_sq b.latitude b.longitude b2.2.stop_lat b2.2.stop_lon)
      ss.enum
    rw [sortAscBy, hperm.length_eq, List.enum_length]
    omega
  · norm_num [preRoundTotals, stepBuilding, nearest3, sortAscBy,
      euclidean_distance_sq, List.insertionSort, List.orderedInsert,
      List.enum, List.enumFrom, List.foldl]

/-- Witness for C7 at the concrete input of the scenario: three stops, one
building of demand 30; every output demand is at least 10. -/
theorem distribute_demand_floor_and_split_witness :
    3 ≤ ([⟨"s1", 0, 0⟩, ⟨"s2", 0, 1⟩, ⟨"s3", 1, 0⟩] : List StopRow).length ∧
      ∀ p ∈ distribute_demand [(⟨0, 0, 30⟩ : Building)]
        [⟨"s1", 0, 0⟩, ⟨"s2", 0, 1⟩, ⟨"s3", 1, 0⟩], 10 ≤ p.2 :=
  ⟨by simp,
    (distribute_demand_floor_and_split [⟨0, 0, 30⟩]
      [⟨"s1", 0, 0⟩, ⟨"s2", 0, 1⟩, ⟨"s3", 1, 0⟩] (by simp)).1⟩

lemma pickFold_spec (od : List ODRow) (tv : String → String → ℚ)
    (fleet k : ℕ) (pen : ℚ) (sel : List Line) :
    ∀ (rest : List Line) (p : Line × ℚ),
      p.2 = iterImprovement od tv fleet k pen sel p.1 →
      ∃ q : Line × ℚ,
        rest.foldl (fun best l2 =>
          let i := iterImprovement od tv fleet k pen sel l2
          if best.2 < i then (l2, i) else best) p = q ∧
        (q.1 = p.1 ∨ q.1 ∈ rest) ∧
        q.2 = iterImprovement od tv fleet k pen sel q.1 ∧
        p.2 ≤ q.2 ∧
        ∀ l ∈ rest, iterImprovement od tv fleet k pen sel l ≤ q.2 := by
  intro rest
  induction rest with
  | nil =>
    intro p hp
    exact ⟨p, rfl, Or.inl rfl, hp, le_refl _, by simp⟩
  | cons l2 rest2 ih =>
    intro p hp
    rw [List.foldl_cons]
    have hred : (let i := iterImprovement od tv fleet k pen sel l2
        if p.2 < i then (l2, i) else p) =
        if p.2 < iterImprovement od tv fleet k pen sel l2 then
          (l2, iterImprovement od tv fleet k pen sel l2)
        else p := rfl
    rw [hred]
    by_cases hcmp : p.2 < iterImprovement od tv fleet k pen sel l2
    · rw [if_pos hcmp]
      obtain ⟨q, hq, hmem, hqi, hle, hall⟩ :=
        ih (l2, iterImprovement od tv fleet k pen sel l2) rfl
      refine ⟨q, hq, ?_, hqi, le_of_lt (lt_of_lt_of_le hcmp hle), ?_⟩
      · rcases hmem with hm | hm
        · exact Or.inr (hm ▸ List.mem_cons_self l2 rest2)
        · exact Or.inr (List.mem_cons_of_mem l2 hm)
      · intro l hl
        rcases List.mem_cons.mp hl with rfl | hl2
        · exact hle
        · exact hall l hl2
    · rw [if_neg hcmp]
      obtain ⟨q, hq, hmem, hqi, hle, hall⟩ := ih p hp
      refine ⟨q, hq, ?_, hqi, hle, ?_⟩
      · rcases hmem with hm | hm
        · exact Or.inl hm
        · exact Or.inr (List.mem_cons_of_mem l2 hm)
      · intro l hl
        rcases List.mem_cons.mp hl with rfl | hl2
        · exact le_trans (le_of_not_lt hcmp) hle
        · exact hall l hl2

lemma pickBestLine_spec (od : List ODRow) (tv : String → String → ℚ)
    (fleet k : ℕ) (pen : ℚ) (sel : List Line) (rem : List Line)
    (b : Line) (imp : ℚ)
    (h : pickBestLine od tv fleet k pen sel rem = some (b, imp)) :
    b ∈ rem ∧ imp = iterImprovement od tv fleet k pen sel b ∧
      ∀ l ∈ rem, iterImprovement od tv fleet k pen sel l ≤ imp := by
  cases rem with
  | nil => simp [pickBestLine] at h
  | cons l rest =>
    obtain ⟨q, hq, hmem, hqi, hle, hall⟩ := pickFold_spec od tv fleet k pen sel
      rest (l, iterImprovement od tv fleet k pen sel l) rfl
    rw [pickBestLine, hq] at h
    injection h with h2
    subst h2
    refine ⟨?_, hqi, ?_⟩
    · rcases hmem with hm | hm
      · have hbl : b = l := hm
        rw [hbl]
        exact List.mem_cons_self l rest
      · exact List.mem_cons_of_mem l hm
    · intro l2 hl2
      rcases List.mem_cons.mp hl2 with rfl | hl3
      · exact hle
      · exact hall l2 hl3

lemma pickBestLine_none {od : List ODRow} {tv : String → String → ℚ}
    {fleet k : ℕ} {pen : ℚ} {sel : List Line} {rem : List Line}
    (h : pickBestLine od tv fleet k pen sel rem = none) : rem = [] := by
  cases rem with
  | nil => rfl
  | cons l rest => simp [pickBestLine] at h

lemma iterLoop_run (od : List ODRow) (tv : String → String → ℚ)
    (fleet k : ℕ) (pen : ℚ) :
    ∀ (fuel : ℕ) (sel rem : List Line), rem.length ≤ fuel →
      IterRun od tv fleet k pen sel rem
        (iterLoop od tv fleet k pen fuel sel rem) := by
  intro fuel
  induction fuel with
  | zero =>
    intro sel rem h
    have hrem : rem = [] := List.length_eq_zero.mp (Nat.le_zero.mp h)
    subst hrem
    exact IterRun.stop sel [] (by simp)
  | succ f ih =>
    intro sel rem h
    cases hp : pickBestLine od tv fleet k pen sel rem with
    | none =>
      have hrem : rem = [] := pickBestLine_none hp
      subst hrem
      have : iterLoop od tv fleet k pen (f + 1) sel [] = sel := by
        simp [iterLoop, pickBestLine]
      rw [this]
      exact IterRun.stop sel [] (by simp)
    | some bi =>
      obtain ⟨b, imp⟩ := bi
      obtain ⟨hb, himp, hmax⟩ := pickBestLine_spec od tv fleet k pen sel rem b imp hp
      have hloop : iterLoop od tv fleet k pen (f + 1) sel rem =
          if 0 < imp then iterLoop od tv fleet k pen f (sel ++ [b]) (rem.erase b)
          else sel := by
        simp [iterLoop, hp]
      rw [hloop]
      by_cases hpos : 0 < imp
      · rw [if_pos hpos]
        refine IterRun.pick sel rem _ b hb
          (fun l hl => himp ▸ hmax l hl) (himp ▸ hpos) ?_
        refine ih (sel ++ [b]) (rem.erase b) ?_
        have := List.length_erase_of_mem hb
        omega
      · rw [if_neg hpos]
        exact IterRun.stop sel rem
          (fun l hl => le_trans (hmax l hl) (le_of_not_lt hpos))

/-- C5 (amended): optimize_routes_iterative realises a greedy run: starting
from the empty selection over the efficiency-sorted pool, it repeatedly
evaluates adding every remaining candidate, picks one maximising the
improvement (coverage - old coverage) * 1000 - (cost - old cost) / 1000
relative to the current selection, appends it only when that improvement is
positive, and stops exactly when no remaining candidate has positive
improvement; on the first step (empty selection) the improvement of a
candidate is the absolute score coverage * 1000 - cost / 1000 of its own
evaluation, not a delta against the sentinel evaluation of the empty
selection. -/
theorem optimize_routes_iterative_greedy_run (candidates : List Line)
    (od : List ODRow) (tv : String → String → ℚ) (fleet k : ℕ) (pen : ℚ) :
    IterRun od tv fleet k pen []
      (sortDescBy (fun ln : Line => ln.efficiency_score) candidates)
      (optimize_routes_iterative candidates od tv fleet k pen) ∧
    ∀ line : Line,
      iterImprovement od tv fleet k pen [] line =
        (evaluate_solution_improved [line] od tv fleet k pen 1).2.1 * 1000 -
          (evaluate_solution_improved [line] od tv fleet k pen 1).1 / 1000 :=
  ⟨iterLoop_run od tv fleet k pen _ [] _ (le_refl _), fun _ => rfl⟩

/-- Counterexample to C5 as stated: with one candidate line and an empty OD
matrix, the evaluation of the candidate alone is (0, 0, 0), so its
improvement relative to the empty-selection evaluation (1e9, 0, 0) is
(0 - 0) * 1000 - (0 - 1e9) / 1000 = 10^6 > 0 and the claim predicts the
candidate is selected; the code computes the absolute score 0 instead,
finds no positive improvement and returns the empty selection. -/
theorem optimize_routes_iterative_first_step_cex :
    optimize_routes_iterative [⟨"L", ["o", "dd"], 1, 0, 0⟩] []
      (fun _ _ => 0) 1 0 0 = [] ∧
    0 < ((evaluate_solution_improved [⟨"L", ["o", "dd"], 1, 0, 0⟩] []
        (fun _ _ => 0) 1 0 0 1).2.1 - 0) * 1000 -
      ((evaluate_solution_improved [⟨"L", ["o", "dd"], 1, 0, 0⟩] []
        (fun _ _ => 0) 1 0 0 1).1 - 1000000000) / 1000 := by
  constructor
  · norm_num [optimize_routes_iterative, iterLoop, pickBestLine, iterImprovement,
      evaluate_solution_improved, sortDescBy, List.insertionSort,
      List.orderedInsert]
  · norm_num [evaluate_solution_improved]

/-- C9: every selection policy together with the evaluator is a pure
function of its inputs: two runs on equal candidate pools, OD matrices,
travel-time functions and parameters return equal selected line lists and
equal solution metrics.  The embedded definitions contain no source of
nondeterminism, matching the absence of randomized search in the source. -/
theorem selection_policies_deterministic
    (c₁ c₂ : List Line) (od₁ od₂ : List ODRow)
    (tv₁ tv₂ : String → String → ℚ) (fleet₁ fleet₂ k₁ k₂ : ℕ)
    (pen₁ pen₂ fmin₁ fmin₂ : ℚ)
    (hc : c₁ = c₂) (hod : od₁ = od₂) (htv : tv₁ = tv₂)
    (hf : fleet₁ = fleet₂) (hk : k₁ = k₂) (hp : pen₁ = pen₂)
    (hm : fmin₁ = fmin₂) :
    optimize_routes_iterative c₁ od₁ tv₁ fleet₁ k₁ pen₁ =
      optimize_routes_iterative c₂ od₂ tv₂ fleet₂ k₂ pen₂ ∧
    optimize_routes_demand_driven c₁ od₁ tv₁ fleet₁ k₁ pen₁ =
      optimize_routes_demand_driven c₂ od₂ tv₂ fleet₂ k₂ pen₂ ∧
    greedy_select_lines od₁ c₁ tv₁ fleet₁ k₁ pen₁ fmin₁ =
      greedy_select_lines od₂ c₂ tv₂ fleet₂ k₂ pen₂ fmin₂ ∧
    evaluate_solution_improved c₁ od₁ tv₁ fleet₁ k₁ pen₁ fmin₁ =
      evaluate_solution_improved c₂ od₂ tv₂ fleet₂ k₂ pen₂ fmin₂ := by
  subst hc hod htv hf hk hp hm
  exact ⟨rfl, rfl, rfl, rfl⟩

/-- Witness for C9 at a concrete input pair. -/
theorem selection_policies_deterministic_witness :
    optimize_routes_iterative [] [] (fun _ _ => 0) 1 1 0 =
      optimize_routes_iterative [] [] (fun _ _ => 0) 1 1 0 ∧
    optimize_routes_demand_driven [] [] (fun _ _ => 0) 1 1 0 =
      optimize_routes_demand_driven [] [] (fun _ _ => 0) 1 1 0 ∧
    greedy_select_lines [] [] (fun _ _ => 0) 1 1 0 1 =
      greedy_select_lines [] [] (fun _ _ => 0) 1 1 0 1 ∧
    evaluate_solution_improved [] [] (fun _ _ => 0) 1 1 0 1 =
      evaluate_solution_improved [] [] (fun _ _ => 0) 1 1 0 1 :=
  selection_policies_deterministic [] [] [] [] (fun _ _ => 0) (fun _ _ => 0)
    1 1 1 1 0 0 1 1 rfl rfl rfl rfl rfl rfl rfl

lemma iterLoop_subset (od : List ODRow) (tv : String → String → ℚ)
    (fleet k : ℕ) (pen : ℚ) :
    ∀ (fuel : ℕ) (sel rem : List Line),
      ∀ x ∈ iterLoop od tv fleet k pen fuel sel rem, x ∈ sel ++ rem := by
  intro fuel
  induction fuel with
  | zero => intro sel rem x hx; exact List.mem_append_left rem hx
  | succ f ih =>
    intro sel rem x hx
    rcases hp : pickBestLine od tv fleet k pen sel rem with _ | ⟨b, imp⟩
    · rw [iterLoop, hp] at hx
      exact List.mem_append_left rem hx
    · have hloop : iterLoop od tv fleet k pen (f + 1) sel rem =
          if 0 < imp then iterLoop od tv fleet k pen f (sel ++ [b]) (rem.erase b)
          else sel := by
        simp [iterLoop, hp]
      rw [hloop] at hx
      by_cases hpos : 0 < imp
      · rw [if_pos hpos] at hx
        have hb : b ∈ rem := (pickBestLine_spec od tv fleet k pen sel rem b imp hp).1
        have := ih (sel ++ [b]) (rem.erase b) x hx
        rcases List.mem_append.mp this with hsb | he
        · rcases List.mem_append.mp hsb with hs | hbb
          · exact List.mem_append_left rem hs
          · rw [List.mem_singleton.mp hbb]
            exact List.mem_append_right sel hb
        · exact List.mem_append_right sel (List.mem_of_mem_erase he)
      · rw [if_neg hpos] at hx
        exact List.mem_append_left rem hx

lemma iterLoop_nodup (od : List ODRow) (tv : String → String → ℚ)
    (fleet k : ℕ) (pen : ℚ) :
    ∀ (fuel : ℕ) (sel rem : List Line), (sel ++ rem).Nodup →
      (iterLoop od tv fleet k pen fuel sel rem).Nodup := by
  intro fuel
  induction fuel with
  | zero =>
    intro sel rem h
    exact (List.sublist_append_left sel rem).nodup h
  | succ f ih =>
    intro sel rem h
    rcases hp : pickBestLine od tv fleet k pen sel rem with _ | ⟨b, imp⟩
    · rw [iterLoop, hp]
      exact (List.sublist_append_left sel rem).nodup h
    · have hloop : iterLoop od tv fleet k pen (f + 1) sel rem =
          if 0 < imp then iterLoop od tv fleet k pen f (sel ++ [b]) (rem.erase b)
          else sel := by
        simp [iterLoop, hp]
      rw [hloop]
      by_cases hpos : 0 < imp
      · rw [if_pos hpos]
        have hb : b ∈ rem := (pickBestLine_spec od tv fleet k pen sel rem b imp hp).1
        refine ih (sel ++ [b]) (rem.erase b) ?_
        have hperm : (sel ++ rem).Perm ((sel ++ [b]) ++ rem.erase b) := by
          rw [List.append_assoc, List.singleton_append]
          exact List.Perm.append_left sel (List.perm_cons_erase hb)
        exact hperm.nodup h
      · rw [if_neg hpos]
        exact (List.sublist_append_left sel rem).nodup h

lemma greedyFold_mem (od : List ODRow) (tv : String → String → ℚ)
    (fleet k : ℕ) (pen f_min : ℚ) (sel : List Line) :
    ∀ (rem : List Line) (acc : Option Line × ℚ),
      (rem.foldl (fun acc2 ln =>
        let nc := greedyTotalCost od tv fleet k pen f_min (sel ++ [ln])
        if nc < acc2.2 then (some ln, nc) else acc2) acc).1 = acc.1 ∨
      ∃ b, (rem.foldl (fun acc2 ln =>
        let nc := greedyTotalCost od tv fleet k pen f_min (sel ++ [ln])
        if nc < acc2.2 then (some ln, nc) else acc2) acc).1 = some b ∧ b ∈ rem := by
  intro rem
  induction rem with
  | nil => intro acc; exact Or.inl rfl
  | cons ln rest ih =>
    intro acc
    rw [List.foldl_cons]
    have hred : (let nc := greedyTotalCost od tv fleet k pen f_min (sel ++ [ln])
        if nc < acc.2 then (some ln, nc) else acc) =
        if greedyTotalCost od tv fleet k pen f_min (sel ++ [ln]) < acc.2 then
          (some ln, greedyTotalCost od tv fleet k pen f_min (sel ++ [ln]))
        else acc := rfl
    rw [hred]
    by_cases hc : greedyTotalCost od tv fleet k pen f_min (sel ++ [ln]) < acc.2
    · rw [if_pos hc]
      rcases ih (some ln, greedyTotalCost od tv fleet k pen f_min (sel ++ [ln])) with
        h1 | ⟨b, hb1, hb2⟩
      · exact Or.inr ⟨ln, h1, List.mem_cons_self ln rest⟩
      · exact Or.inr ⟨b, hb1, List.mem_cons_of_mem ln hb2⟩
    · rw [if_neg hc]
      rcases ih acc with h1 | ⟨b, hb1, hb2⟩
      · exact Or.inl h1
      · exact Or.inr ⟨b, hb1, List.mem_cons_of_mem ln hb2⟩

lemma greedyPick_mem {od : List ODRow} {tv : String → String → ℚ}
    {fleet k : ℕ} {pen f_min : ℚ} {sel : List Line} {rem : List Line}
    {base : ℚ} {b : Line} {c : ℚ}
    (h : greedyPick od tv fleet k pen f_min sel rem base = (some b, c)) :
    b ∈ rem := by
  have := greedyFold_mem od tv fleet k pen f_min sel rem (none, base)
  rw [greedyPick] at h
  rw [h] at this
  rcases this with h1 | ⟨b2, hb1, hb2⟩
  · exact absurd h1 (by simp)
  · have : b = b2 := by injection hb1
    rw [this]
    exact hb2

lemma greedyLoop_subset (od : List ODRow) (tv : String → String → ℚ)
    (fleet k : ℕ) (pen f_min : ℚ) :
    ∀ (fuel : ℕ) (sel rem : List Line),
      ∀ x ∈ greedyLoop od tv fleet k pen f_min fuel sel rem, x ∈ sel ++ rem := by
  intro fuel
  induction fuel with
  | zero => intro sel rem x hx; exact List.mem_append_left rem hx
  | succ f ih =>
    intro sel rem x hx
    cases rem with
    | nil =>
      rw [greedyLoop] at hx
      exact List.mem_append_left [] hx
    | cons l rest =>
      rcases hp : greedyPick od tv fleet k pen f_min sel (l :: rest)
          (greedyTotalCost od tv fleet k pen f_min sel) with ⟨ob, c⟩
      cases ob with
      | none =>
        have hloop : greedyLoop od tv fleet k pen f_min (f + 1) sel (l :: rest) =
            sel := by
          simp [greedyLoop, hp]
        rw [hloop] at hx
        exact List.mem_append_left (l :: rest) hx
      | some b =>
        have hloop : greedyLoop od tv fleet k pen f_min (f + 1) sel (l :: rest) =
            greedyLoop od tv fleet k pen f_min f (sel ++ [b]) ((l :: rest).erase b) := by
          simp [greedyLoop, hp]
        rw [hloop] at hx
        have hb : b ∈ l :: rest := greedyPick_mem hp
        have := ih (sel ++ [b]) ((l :: rest).erase b) x hx
        rcases List.mem_append.mp this with hsb | he
        · rcases List.mem_append.mp hsb with hs | hbb
          · exact List.mem_append_left (l :: rest) hs
          · rw [List.mem_singleton.mp hbb]
            exact List.mem_append_right sel hb
        · exact List.mem_append_right sel (List.mem_of_mem_erase he)

lemma greedyLoop_nodup (od : List ODRow) (tv : String → String → ℚ)
    (fleet k : ℕ) (pen f_min : ℚ) :
    ∀ (fuel : ℕ) (sel rem : List Line), (sel ++ rem).Nodup →
      (greedyLoop od tv fleet k pen f_min fuel sel rem).Nodup := by
  intro fuel
  induction fuel with
  | zero =>
    intro sel rem h
    exact (List.sublist_append_left sel rem).nodup h
  | succ f ih =>
    intro sel rem h
    cases rem with
    | nil =>
      rw [greedyLoop]
      exact (List.sublist_append_left sel []).nodup h
    | cons l rest =>
      rcases hp : greedyPick od tv fleet k pen f_min sel (l :: rest)
          (greedyTotalCost od tv fleet k pen f_min sel) with ⟨ob, c⟩
      cases ob with
      | none =>
        have hloop : greedyLoop od tv fleet k pen f_min (f + 1) sel (l :: rest) =
            sel := by
          simp [greedyLoop, hp]
        rw [hloop]
        exact (List.sublist_append_left sel (l :: rest)).nodup h
      | some b =>
        have hloop : greedyLoop od tv fleet k pen f_min (f + 1) sel (l :: rest) =
            greedyLoop od tv fleet k pen f_min f (sel ++ [b]) ((l :: rest).erase b) := by
          simp [greedyLoop, hp]
        rw [hloop]
        have hb : b ∈ l :: rest := greedyPick_mem hp
        refine ih (sel ++ [b]) ((l :: rest).erase b) ?_
        have hperm : (sel ++ l :: rest).Perm ((sel ++ [b]) ++ (l :: rest).erase b) := by
          rw [List.append_assoc, List.singleton_append]
          exact List.Perm.append_left sel (List.perm_cons_erase hb)
        exact hperm.nodup h

lemma relevantLines_subset (candidates : List Line) (source : String)
    (topDest : List String) :
    ∀ l ∈ relevantLines candidates source topDest, l ∈ candidates := by
  intro l hl
  simp only [relevantLines] at hl
  obtain ⟨p, hp, hpl⟩ := List.mem_map.mp hl
  have hp2 : p ∈ sortDescBy (fun p : Line × ℕ => toLex (p.2, p.1.efficiency_score))
      ((candidates.filter (fun ln => ln.stops.contains source)).filterMap
        (fun ln =>
          let served := topDest.countP (fun dst => ln.stops.contains dst)
          if 0 < served then some (ln, served) else none)) :=
    List.take_subset 3 _ hp
  have hp3 := (List.perm_insertionSort _ _).subset hp2
  obtain ⟨ln, hln, hf⟩ := List.mem_filterMap.mp hp3
  have hln2 : ln ∈ candidates := (List.mem_filter.mp hln).1
  by_cases hs : 0 < topDest.countP (fun dst => ln.stops.contains dst)
  · have : (ln, topDest.countP (fun dst => ln.stops.contains dst)) = p := by
      have hred : (let served := topDest.countP (fun dst => ln.stops.contains dst)
          if 0 < served then some (ln, served) else none) =
          some (ln, topDest.countP (fun dst => ln.stops.contains dst)) := by
        rw [if_pos hs]
      rw [hred] at hf
      injection hf
    rw [← hpl, ← this]
    exact hln2
  · have hred : (let served := topDest.countP (fun dst => ln.stops.contains dst)
        if 0 < served then some (ln, served) else none) = none := by
      rw [if_neg hs]
    rw [hred] at hf
    exact absurd hf (by simp)

lemma ddPhase1_fold (routesOf : String → List Line) :
    ∀ (sources : List String) (acc : List Line × List String),
      acc.1.Nodup → (∀ l ∈ acc.1, l.line_id ∈ acc.2) →
      ∃ q : List Line × List String,
        sources.foldl (fun acc2 source =>
          match (routesOf source).find? (fun r => !acc2.2.contains r.line_id) with
          | some r => (acc2.1 ++ [r], acc2.2 ++ [r.line_id])
          | none => acc2) acc = q ∧
        q.1.Nodup ∧ (∀ l ∈ q.1, l.line_id ∈ q.2) ∧
        (∀ l ∈ q.1, l ∈ acc.1 ∨ ∃ src, l ∈ routesOf src) := by
  intro sources
  induction sources with
  | nil =>
    intro acc h1 h2
    exact ⟨acc, rfl, h1, h2, fun l hl => Or.inl hl⟩
  | cons s rest ih =>
    intro acc h1 h2
    rw [List.foldl_cons]
    cases hf : (routesOf s).find? (fun r => !acc.2.contains r.line_id) with
    | none =>
      obtain ⟨q, hq, hqn, hqi, hqo⟩ := ih acc h1 h2
      exact ⟨q, hq, hqn, hqi, hqo⟩
    | some r =>
      have hrid : r.line_id ∉ acc.2 := by
        have hcf := List.find?_some hf
        simp only [Bool.not_eq_true'] at hcf
        intro hmem
        have hc2 : acc.2.contains r.line_id = true := List.elem_iff.mpr hmem
        rw [hc2] at hcf
        exact absurd hcf (by decide)
      have hrnotin : r ∉ acc.1 := fun hr => hrid (h2 r hr)
      have h1' : (acc.1 ++ [r]).Nodup := by
        rw [List.nodup_append]
        refine ⟨h1, List.nodup_singleton r, ?_⟩
        intro a ha hb
        rw [List.mem_singleton.mp hb] at ha
        exact hrnotin ha
      have h2' : ∀ l ∈ acc.1 ++ [r], l.line_id ∈ acc.2 ++ [r.line_id] := by
        intro l hl
        rcases List.mem_append.mp hl with hl1 | hl2
        · exact List.mem_append_left _ (h2 l hl1)
        · rw [List.mem_singleton.mp hl2]
          exact List.mem_append_right _ (List.mem_singleton_self _)
      obtain ⟨q, hq, hqn, hqi, hqo⟩ := ih (acc.1 ++ [r], acc.2 ++ [r.line_id]) h1' h2'
      refine ⟨q, hq, hqn, hqi, ?_⟩
      intro l hl
      rcases hqo l hl with hin | hsrc
      · rcases List.mem_append.mp hin with hl1 | hl2
        · exact Or.inl hl1
        · rw [List.mem_singleton.mp hl2]
          exact Or.inr ⟨s, List.mem_of_find?_eq_some hf⟩
      · exact Or.inr hsrc

lemma ddPhase2_subset (fleet : ℕ) :
    ∀ (rem sel : List Line), ∀ x ∈ ddPhase2 fleet sel rem, x ∈ sel ∨ x ∈ rem := by
  intro rem
  induction rem with
  | nil => intro sel x hx; exact Or.inl hx
  | cons l rest ih =>
    intro sel x hx
    rw [ddPhase2] at hx
    by_cases hcap : fleet / 2 ≤ sel.length
    · rw [if_pos hcap] at hx
      exact Or.inl hx
    · rw [if_neg hcap] at hx
      by_cases hover : (overlapCount l sel : ℚ) < (l.stops.length : ℚ) * (7 / 10)
      · rw [if_pos hover] at hx
        rcases ih (sel ++ [l]) x hx with hs | hr
        · rcases List.mem_append.mp hs with hs1 | hs2
          · exact Or.inl hs1
          · exact Or.inr (by rw [List.mem_singleton.mp hs2]; exact List.mem_cons_self l rest)
        · exact Or.inr (List.mem_cons_of_mem l hr)
      · rw [if_neg hover] at hx
        rcases ih sel x hx with hs | hr
        · exact Or.inl hs
        · exact Or.inr (List.mem_cons_of_mem l hr)

lemma ddPhase2_nodup (fleet : ℕ) :
    ∀ (rem sel : List Line), sel.Nodup → rem.Nodup → (∀ x ∈ rem, x ∉ sel) →
      (ddPhase2 fleet sel rem).Nodup := by
  intro rem
  induction rem with
  | nil => intro sel h1 _ _; exact h1
  | cons l rest ih =>
    intro sel h1 h2 h3
    rw [ddPhase2]
    by_cases hcap : fleet / 2 ≤ sel.length
    · rw [if_pos hcap]; exact h1
    · rw [if_neg hcap]
      have hlr := List.nodup_cons.mp h2
      by_cases hover : (overlapCount l sel : ℚ) < (l.stops.length : ℚ) * (7 / 10)
      · rw [if_pos hover]
        refine ih (sel ++ [l]) ?_ hlr.2 ?_
        · rw [List.nodup_append]
          refine ⟨h1, List.nodup_singleton l, ?_⟩
          intro a ha hb
          rw [List.mem_singleton.mp hb] at ha
          exact h3 l (List.mem_cons_self l rest) ha
        · intro x hx hmem
          rcases List.mem_append.mp hmem with hs1 | hs2
          · exact h3 x (List.mem_cons_of_mem l hx) hs1
          · rw [List.mem_singleton.mp hs2] at hx
            exact hlr.1 hx
      · rw [if_neg hover]
        exact ih sel h1 hlr.2 (fun x hx => h3 x (List.mem_cons_of_mem l hx))

/-- C10 (amended): every selection policy returns only members of its
candidate pool, and when the pool contains no duplicate lines the returned
list contains no duplicates either. -/
theorem selection_policies_subset_nodup
    (candidates : List Line) (od : List ODRow) (tv : String → String → ℚ)
    (fleet k : ℕ) (pen f_min : ℚ) :
    (∀ l ∈ optimize_routes_iterative candidates od tv fleet k pen, l ∈ candidates) ∧
    (∀ l ∈ optimize_routes_demand_driven candidates od tv fleet k pen, l ∈ candidates) ∧
    (∀ l ∈ greedy_select_lines od candidates tv fleet k pen f_min, l ∈ candidates) ∧
    (candidates.Nodup →
      (optimize_routes_iterative candidates od tv fleet k pen).Nodup ∧
      (optimize_routes_demand_driven candidates od tv fleet k pen).Nodup ∧
      (greedy_select_lines od candidates tv fleet k pen f_min).Nodup) := by
  have hiter : ∀ l ∈ optimize_routes_iterative candidates od tv fleet k pen,
      l ∈ candidates := by
    intro l hl
    simp only [optimize_routes_iterative] at hl
    have hsub := iterLoop_subset od tv fleet k pen _ [] _ l hl
    rw [List.nil_append] at hsub
    exact (List.perm_insertionSort _ _).subset hsub
  have hitern : candidates.Nodup →
      (optimize_routes_iterative candidates od tv fleet k pen).Nodup := by
    intro hnd
    simp only [optimize_routes_iterative]
    refine iterLoop_nodup od tv fleet k pen _ [] _ ?_
    rw [List.nil_append]
    exact ((List.perm_insertionSort _ _).symm).nodup hnd
  have hgm : ∀ l ∈ greedy_select_lines od candidates tv fleet k pen f_min,
      l ∈ candidates := by
    intro l hl
    simp only [greedy_select_lines] at hl
    have hsub := greedyLoop_subset od tv fleet k pen f_min _ [] _ l hl
    rw [List.nil_append] at hsub
    exact hsub
  have hgn : candidates.Nodup →
      (greedy_select_lines od candidates tv fleet k pen f_min).Nodup := by
    intro hnd
    simp only [greedy_select_lines]
    refine greedyLoop_nodup od tv fleet k pen f_min _ [] _ ?_
    rw [List.nil_append]
    exact hnd
  have hdd : ∀ l ∈ optimize_routes_demand_driven candidates od tv fleet k pen,
      l ∈ candidates := by
    intro l hl
    simp only [optimize_routes_demand_driven] at hl
    rcases ddPhase2_subset fleet _ _ l hl with hs | hr
    · obtain ⟨q, hq, hqn, hqi, hqo⟩ := ddPhase1_fold
        (fun s => relevantLines candidates s (topDestinations od s))
        (uniqueFirst (od.map (fun r => r.o))) ([], []) List.nodup_nil (by simp)
      rw [show ddPhase1 (uniqueFirst (od.map (fun r => r.o)))
        (fun s => relevantLines candidates s (topDestinations od s)) = q from hq] at hs
      rcases hqo l hs with habs | ⟨src, hsrc⟩
      · simp at habs
      · exact relevantLines_subset candidates src _ l hsrc
    · have hr2 := (List.perm_insertionSort _ _).subset hr
      exact (List.mem_filter.mp hr2).1
  have hddn : candidates.Nodup →
      (optimize_routes_demand_driven candidates od tv fleet k pen).Nodup := by
    intro hnd
    simp only [optimize_routes_demand_driven]
    obtain ⟨q, hq, hqn, hqi, hqo⟩ := ddPhase1_fold
      (fun s => relevantLines candidates s (topDestinations od s))
      (uniqueFirst (od.map (fun r => r.o))) ([], []) List.nodup_nil (by simp)
    rw [show ddPhase1 (uniqueFirst (od.map (fun r => r.o)))
      (fun s => relevantLines candidates s (topDestinations od s)) = q from hq]
    refine ddPhase2_nodup fleet _ q.1 hqn ?_ ?_
    · exact ((List.perm_insertionSort _ _).symm).nodup (hnd.filter _)
    · intro x hx hxin
      have hx2 := (List.perm_insertionSort _ _).subset hx
      have hxf := List.mem_filter.mp hx2
      have hxc : q.2.contains x.line_id = false := by
        have := hxf.2
        simpa only [Bool.not_eq_true'] using this
      have hxt : q.2.contains x.line_id = true := List.elem_iff.mpr (hqi x hxin)
      rw [hxt] at hxc
      exact absurd hxc (by decide)
  exact ⟨hiter, hdd, hgm, fun hnd => ⟨hitern hnd, hddn hnd, hgn hnd⟩⟩

/-- Counterexample to C10 as stated: a candidate pool that lists the same
line twice, the line naming the same stop four times.  In the second phase
of the demand-driven policy the overlap of the duplicate with the already
selected copy counts distinct stops (1) against 70 percent of the raw stop
count (2.8), so the duplicate is appended again and the returned list has a
duplicate. -/
theorem optimize_routes_demand_driven_duplicate_cex :
    ¬ (optimize_routes_demand_driven [⟨"A", ["s", "s", "s", "s"], 1, 0, 0⟩,
        ⟨"A", ["s", "s", "s", "s"], 1, 0, 0⟩] [] (fun _ _ => 0) 12 2 5).Nodup := by
  norm_num [optimize_routes_demand_driven, uniqueFirst, ddPhase1, ddPhase2,
    overlapCount, relevantLines, topDestinations, sortDescBy,
    List.insertionSort, List.orderedInsert, List.dedup]

/-- Witness for C10 (amended) at a concrete duplicate-free pool. -/
theorem selection_policies_subset_nodup_witness :
    ([(⟨"M", ["a"], 1, 0, 0⟩ : Line)]).Nodup ∧
      ((optimize_routes_iterative [⟨"M", ["a"], 1, 0, 0⟩] [] (fun _ _ => 0) 1 0 0).Nodup ∧
        (optimize_routes_demand_driven [⟨"M", ["a"], 1, 0, 0⟩] [] (fun _ _ => 0) 1 0 0).Nodup ∧
        (greedy_select_lines [] [⟨"M", ["a"], 1, 0, 0⟩] (fun _ _ => 0) 1 0 0 1).Nodup) :=
  ⟨List.nodup_singleton _,
    (selection_policies_subset_nodup [⟨"M", ["a"], 1, 0, 0⟩] [] (fun _ _ => 0)
      1 0 0 1).2.2.2 (List.nodup_singleton _)⟩

lemma sortDescBy_sorted {α K : Type} [LinearOrder K] (key : α → K)
    (l : List α) :
    List.Sorted (fun a b => key b ≤ key a) (sortDescBy key l) := by
  haveI : IsTotal α (fun a b => key b ≤ key a) :=
    ⟨fun a b => le_total (key b) (key a)⟩
  haveI : IsTrans α (fun a b => key b ≤ key a) :=
    ⟨fun _ _ _ ha hb => le_trans hb ha⟩
  exact List.sorted_insertionSort _ l

/-- C8: for every abstracted distance function, stop registry, OD matrix,
target_lines cap and speed, the candidate list returned by the hub-and-spoke
generator is sorted by per-line efficiency score in descending order and
contains at most target_lines lines. -/
theorem build_hub_and_spoke_routes_sorted_truncated
    (hav : ℚ → ℚ → ℚ → ℚ → ℚ) (registry : List Stop) (od : List ODRow)
    (target_lines : ℕ) (speed : ℚ) :
    List.Sorted (fun a b : Line => b.efficiency_score ≤ a.efficiency_score)
      (build_hub_and_spoke_routes hav registry od target_lines speed) ∧
    (build_hub_and_spoke_routes hav registry od target_lines speed).length ≤
      target_lines := by
  constructor
  · simp only [build_hub_and_spoke_routes]
    exact List.Pairwise.sublist (List.take_sublist _ _)
      (sortDescBy_sorted (fun ln : Line => ln.efficiency_score) _)
  · simp only [build_hub_and_spoke_routes]
    exact List.length_take_le _ _
